import Mathlib

/-!
Verification of the ConcurrentDB key/value store (src/db.c, src/db.h,
src/src/server.c) against its natural-language specification.

The database core is a sentinel-rooted binary search tree over
NUL-terminated byte strings.  We model a C string as a `List Nat` of its
bytes (excluding the terminating NUL; keys and values produced by the
command interpreter never contain interior NUL bytes, since `sscanf`
`%255s` tokens consist of non-whitespace bytes).

The tree operations `search`, `db_query`, `db_add`, `db_remove`
(src/db.c:100-251) are translated into pure recursive functions: the
in-place pointer updates of the C code become functional reconstruction
of the nodes along the search path.  The locking calls of the C code
order the concurrent interleavings and have no effect on the
single-operation input/output behaviour modelled here; every theorem
below is about one operation (or a sequence of operations) executing on
the tree, which is exactly the granularity at which the C code holds its
hand-over-hand locks.

`malloc`/`realloc` are modelled as succeeding (allocation failure is
environment nondeterminism; the oversize-input rejection of
`node_constructor`, which is the deterministic way it can fail, is
modelled faithfully).  `snprintf(dst, MAXLEN, "%s", src)` writes
`min (strlen src) (MAXLEN - 1)` bytes plus a NUL and never returns a
negative value for the `%s` format, so the `< 0` branches of
`node_constructor` are dead code.
-/

namespace ConcurrentDB

/-- A C byte string: the list of its bytes before the terminating NUL. -/
abbrev Str := List Nat

/-- C `strcmp` on NUL-terminated byte strings, as a three-way comparison.
The empty string is minimal, and comparison is byte-lexicographic on
unsigned byte values. -/
def strcmp : Str → Str → Ordering
  | [], [] => .eq
  | [], _ :: _ => .lt
  | _ :: _, [] => .gt
  | a :: as, b :: bs =>
    if a < b then .lt
    else if b < a then .gt
    else strcmp as bs

/-- The binary-tree node structure of src/db.h:7-13 (the lock field is
elided: it guards concurrent access and carries no data). -/
inductive Tree where
  | nil : Tree
  | node (key value : Str) (lchild rchild : Tree) : Tree
deriving DecidableEq, Repr

namespace Tree

/-- Number of nodes, used as the termination measure of the descent. -/
def size : Tree → Nat
  | nil => 0
  | node _ _ l r => size l + size r + 1

/-- In-order list of (key, value) entries. -/
def entries : Tree → List (Str × Str)
  | nil => []
  | node k v l r => entries l ++ (k, v) :: entries r

/-- In-order list of keys. -/
def keys (t : Tree) : List Str := t.entries.map Prod.fst

end Tree

/-- Strict byte-lexicographic "less than". -/
def ltKey (a b : Str) : Prop := strcmp a b = .lt

instance (a b : Str) : Decidable (ltKey a b) := by unfold ltKey; infer_instance

/-- BST strict-order invariant: at every node, all keys of the left
subtree are strictly less than the node's key and all keys of the right
subtree are strictly greater (spec §3, §8). -/
def bst : Tree → Prop
  | .nil => True
  | .node k _ l r =>
    (∀ a ∈ l.keys, ltKey a k) ∧ (∀ a ∈ r.keys, ltKey k a) ∧ bst l ∧ bst r

/-- Executable mirror of `bst`, used to evaluate the invariant on
concrete trees. -/
def bstB : Tree → Bool
  | .nil => true
  | .node k _ l r =>
    (l.keys.all fun a => decide (strcmp a k = .lt)) &&
    (r.keys.all fun a => decide (strcmp k a = .lt)) && bstB l && bstB r

theorem bstB_iff_bst : ∀ t : Tree, bstB t = true ↔ bst t
  | .nil => by simp [bstB, bst]
  | .node k v l r => by
    simp [bstB, bst, List.all_eq_true, ltKey, bstB_iff_bst l, bstB_iff_bst r,
      and_assoc, beq_iff_eq]

/-- `MAXLEN` of src/db.c:11. -/
def MAXLEN : Nat := 256

/-- `node_constructor` (src/db.c:20-65).  Inputs longer than `MAXLEN`
bytes are rejected; otherwise the key and value are copied with
`snprintf(buf, MAXLEN, "%s", src)`, which stores at most `MAXLEN - 1 =
255` bytes (so an input of exactly 256 bytes is silently truncated),
and the child links are set to the given arguments (always `NULL` at
the only call site, src/db.c:166). -/
def node_constructor (arg_key arg_value : Str) (arg_left arg_right : Tree) :
    Option Tree :=
  if MAXLEN < arg_key.length ∨ MAXLEN < arg_value.length then none
  else some (.node (arg_key.take (MAXLEN - 1)) (arg_value.take (MAXLEN - 1))
    arg_left arg_right)

/-- The descent loop `search` (src/db.c:100-132), restricted to its
functional content.  The argument is the current parent node (a
`Tree.node`; the C code never passes `NULL`, so the `nil` case is dead
code returning "absent").  Following the C: read the parent's left or
right pointer according to `strcmp(key, parent->key) < 0`; a `NULL`
link means absent; a child with an equal key is the target (whose
value is returned); otherwise recurse with the child as the new
parent.  Lock operations order concurrent interleavings and do not
affect the returned node. -/
def searchT (k : Str) : Tree → Option Str
  | .nil => none
  | .node pkey _ pl pr =>
    if strcmp k pkey = .lt then
      match pl with
      | .nil => none
      | .node nk nv _ _ =>
        if strcmp k nk = .eq then some nv else searchT k pl
    else
      match pr with
      | .nil => none
      | .node nk nv _ _ =>
        if strcmp k nk = .eq then some nv else searchT k pr

/-- The `newnode` local of `db_add` (src/db.c:166): the constructor's
result, which the C attaches without a NULL check — a failed
construction attaches `NULL`, modelled as `nil`. -/
def newnode (k v : Str) : Tree :=
  match node_constructor k v .nil .nil with
  | none => Tree.nil
  | some t => t

/-- `db_add` (src/db.c:148-174) acting on the subtree rooted at the
current parent node: if `search` finds the key, return 0 and leave the
tree untouched; otherwise construct a node — note that the C attaches
the constructor's result without a NULL check (src/db.c:166-170) — and
attach it on the side of the deep parent selected by
`strcmp(key, parent->key) < 0`.  The C code mutates the deep parent in
place; here every node along the search path is rebuilt with the
updated child, which is the functional rendering of the same update. -/
def addT (k v : Str) : Tree → Bool × Tree
  | .nil => (true, .nil)
  | .node pkey pv pl pr =>
    if strcmp k pkey = .lt then
      match pl with
      | .nil => (true, .node pkey pv (newnode k v) pr)
      | .node nk _ _ _ =>
        if strcmp k nk = .eq then (false, .node pkey pv pl pr)
        else
          let res := addT k v pl
          (res.1, .node pkey pv res.2 pr)
    else
      match pr with
      | .nil => (true, .node pkey pv pl (newnode k v))
      | .node nk _ _ _ =>
        if strcmp k nk = .eq then (false, .node pkey pv pl pr)
        else
          let res := addT k v pr
          (res.1, .node pkey pv pl res.2)

/-- The successor walk of `db_remove` (src/db.c:222-238) on the node
`(k, v, l, r)`: walk down the `lchild` chain to the leftmost node,
unlink it by writing its `rchild` into the link that pointed to it
(`*pnext = next->rchild`), and return its key, its value, and the
subtree with the successor unlinked. -/
def delMin (k v : Str) (l r : Tree) : Str × Str × Tree :=
  match l with
  | .nil => (k, v, r)
  | .node lk lv ll lr =>
    let res := delMin lk lv ll lr
    (res.1, res.2.1, .node k v res.2.2 r)

/-- `db_remove` (src/db.c:176-251) acting on the subtree rooted at the
current parent node.  If the key is absent, return 0.  If the target
`dnode` has no right child, write `dnode->lchild` into the parent link
selected by re-testing `strcmp(dnode->key, parent->key) < 0`
(src/db.c:195) — which can differ from the link `dnode` hangs on only
if the re-test disagrees with the descent comparison; symmetrically
`dnode->rchild` when there is no left child (src/db.c:207).  If both
children exist, `dnode` stays linked where it is: the leftmost node of
its right subtree is unlinked and `dnode`'s key and value are
overwritten with copies of its key and value; the copies go through
`snprintf(buf, MAXLEN, "%s", src)` (src/db.c:244-245) and hence
truncate at `MAXLEN - 1 = 255` bytes. -/
def removeT (k : Str) : Tree → Bool × Tree
  | .nil => (false, .nil)
  | .node pkey pv pl pr =>
    if strcmp k pkey = .lt then
      match pl with
      | .nil => (false, .node pkey pv pl pr)
      | .node nk nv nl nr =>
        if strcmp k nk = .eq then
          match nr with
          | .nil =>
            if strcmp nk pkey = .lt then (true, .node pkey pv nl pr)
            else (true, .node pkey pv (.node nk nv nl nr) nl)
          | .node rk rv rl rr =>
            match nl with
            | .nil =>
              if strcmp nk pkey = .lt then
                (true, .node pkey pv (.node rk rv rl rr) pr)
              else (true, .node pkey pv (.node nk nv nl nr) (.node rk rv rl rr))
            | .node lk lv ll lr =>
              let res := delMin rk rv rl rr
              let newd := Tree.node (res.1.take (MAXLEN - 1))
                (res.2.1.take (MAXLEN - 1)) (.node lk lv ll lr) res.2.2
              (true, .node pkey pv newd pr)
        else
          let res := removeT k pl
          (res.1, .node pkey pv res.2 pr)
    else
      match pr with
      | .nil => (false, .node pkey pv pl pr)
      | .node nk _ nl nr =>
        if strcmp k nk = .eq then
          match nr with
          | .nil =>
            if strcmp nk pkey = .lt then (true, .node pkey pv nl pr)
            else (true, .node pkey pv pl nl)
          | .node rk rv rl rr =>
            match nl with
            | .nil =>
              if strcmp nk pkey = .lt then
                (true, .node pkey pv (.node rk rv rl rr) pr)
              else (true, .node pkey pv pl (.node rk rv rl rr))
            | .node lk lv ll lr =>
              let res := delMin rk rv rl rr
              let newd := Tree.node (res.1.take (MAXLEN - 1))
                (res.2.1.take (MAXLEN - 1)) (.node lk lv ll lr) res.2.2
              (true, .node pkey pv pl newd)
        else
          let res := removeT k pr
          (res.1, .node pkey pv pl res.2)

/-- The database state: the two child links of the static sentinel
`head` (src/db.c:14), whose key and value are the empty string and are
never written (the sentinel is never returned by `search`). -/
structure DB where
  hl : Tree
  hr : Tree
deriving DecidableEq, Repr

/-- The sentinel node with the current child links attached: the tree
the C descent actually starts from. -/
def DB.head (s : DB) : Tree := .node [] [] s.hl s.hr

/-- Reads the sentinel's child links back out of an updated head node. -/
def unhead : Tree → DB
  | .nil => ⟨.nil, .nil⟩
  | .node _ _ l r => ⟨l, r⟩

/-- The initial, sentinel-only database (src/db.c:14: both children
start `NULL`). -/
def emptyDB : DB := ⟨.nil, .nil⟩

/-- `db_add` (src/db.c:148-174): descend from the sentinel (key `""`). -/
def db_add (k v : Str) (s : DB) : Bool × DB :=
  let res := addT k v s.head
  (res.1, unhead res.2)

/-- `db_remove` (src/db.c:176-251): descend from the sentinel. -/
def db_remove (k : Str) (s : DB) : Bool × DB :=
  let res := removeT k s.head
  (res.1, unhead res.2)

/-- The value stored for `k`, as found by `search` from the sentinel
(src/db.c:139): `none` exactly when `db_query` reports `not found`. -/
def db_lookup (k : Str) (s : DB) : Option Str := searchT k s.head

/-! ### The command interpreter (src/db.c:333-412) and the serve loop -/

/-- C `isspace` in the default locale: the whitespace bytes skipped by
`sscanf` `%s`. -/
def isspaceB (c : Nat) : Bool :=
  c == 32 || c == 9 || c == 10 || c == 11 || c == 12 || c == 13

/-- One `%255s` conversion of `sscanf` (src/db.c:348, 361, 375): skip
whitespace; fail (conversion count short / EOF) if nothing remains;
otherwise read up to 255 non-whitespace bytes into the destination,
leaving the rest of the input unconsumed.  A matched token is never
empty. -/
def scanToken (input : Str) : Option (Str × Str) :=
  let s := input.dropWhile (fun c => isspaceB c)
  match s with
  | [] => none
  | _ :: _ =>
    let tok := (s.takeWhile (fun c => !isspaceB c)).take 255
    some (tok, s.drop tok.length)

/-- The bytes of an ASCII string literal, for the response texts. -/
def strBytes (s : String) : Str := s.data.map Char.toNat

/-- `snprintf(buf, len, ...)` of a string: at most `len - 1` bytes are
stored, followed by the NUL terminator. -/
def snprint (len : Nat) (s : Str) : Str := s.take (len - 1)

/-- `db_query` (src/db.c:134-146): the contents of the result buffer
after the call — `search` from the sentinel, then either the literal
`not found` or the target's value, written with
`snprintf(result, len, ...)`. -/
def db_query (k : Str) (len : Nat) (s : DB) : Str :=
  match db_lookup k s with
  | none => snprint len (strBytes "not found")
  | some v => snprint len v

/-- A call into the Tree layer, recorded by the interpreter model so
that "no Tree operation is invoked" is expressible. -/
inductive DBCall where
  | query (k : Str)
  | add (k v : Str)
  | remove (k : Str)
deriving DecidableEq, Repr

/-- `interpret_command` (src/db.c:333-412): returns the response-buffer
contents, the updated database, and the trace of Tree operations
invoked, in order.  `fs` models the file system for the `f` verb
(`none` = `fopen` fails, otherwise the list of lines `fgets` yields);
`fuel` bounds the nesting depth of `f` commands (the C recursion is
unbounded and can diverge on a file that lists itself; the behaviour
of the other verbs does not depend on `fuel`).  `len` is the response
length argument: every write to the response goes through
`snprintf(response, len, ...)`.  The byte tests on `command[0]`
mirror the C `switch`: `q` = 113, `a` = 97, `d` = 100, `f` = 102. -/
def interpret_command (fs : Str → Option (List Str)) :
    Nat → Str → DB → Nat → Str × DB × List DBCall
  | 0, _, s, _ => ([], s, [])
  | fuel + 1, command, s, len =>
    if command.length ≤ 1 then
      (snprint len (strBytes "ill-formed command"), s, [])
    else
      let c := command.headD 0
      if c = 113 then
        match scanToken command.tail with
        | none => (snprint len (strBytes "ill-formed command"), s, [])
        | some (name, _) =>
          let response := db_query name len s
          if response.length = 0 then
            (snprint len (strBytes "not found"), s, [.query name])
          else (response, s, [.query name])
      else if c = 97 then
        match scanToken command.tail with
        | none => (snprint len (strBytes "ill-formed command"), s, [])
        | some (name, rest) =>
          match scanToken rest with
          | none => (snprint len (strBytes "ill-formed command"), s, [])
          | some (value, _) =>
            let res := db_add name value s
            if res.1 then (snprint len (strBytes "added"), res.2, [.add name value])
            else (snprint len (strBytes "already in database"), res.2, [.add name value])
      else if c = 100 then
        match scanToken command.tail with
        | none => (snprint len (strBytes "ill-formed command"), s, [])
        | some (name, _) =>
          let res := db_remove name s
          if res.1 then (snprint len (strBytes "removed"), res.2, [.remove name])
          else (snprint len (strBytes "not in database"), res.2, [.remove name])
      else if c = 102 then
        match scanToken command.tail with
        | none => (snprint len (strBytes "ill-formed command"), s, [])
        | some (name, _) =>
          match fs name with
          | none => (snprint len (strBytes "bad file name"), s, [])
          | some lines =>
            let res := lines.foldl (fun (acc : Str × DB × List DBCall) line =>
              let r := interpret_command fs fuel line acc.2.1 len
              (r.1, r.2.1, acc.2.2 ++ r.2.2)) ([], s, [])
            (snprint len (strBytes "file processed"), res.2.1, res.2.2)
      else (snprint len (strBytes "ill-formed command"), s, [])

/-- `RESLEN` (src/src/server.c:19): the size of the `response` buffer
declared in `run_client`. -/
def RESLEN : Nat := 256

/-- `COMMAND_LEN` (src/src/server.c:20): the size of the `command`
buffer — and the length argument `run_client` actually passes to
`interpret_command`. -/
def COMMAND_LEN : Nat := 64

/-- One dispatch of the session serve loop (src/src/server.c:121-126):
`interpret_command(command, response, COMMAND_LEN)`.  Note the length
argument the C passes is `COMMAND_LEN`, not `RESLEN`. -/
def serve_command (fs : Str → Option (List Str)) (fuel : Nat)
    (command : Str) (s : DB) : Str × DB × List DBCall :=
  interpret_command fs fuel command s COMMAND_LEN

/-! ### Heap-level model of `search`/`db_query` for the frame claim -/

/-- A node as laid out in the C heap: key, value and the two child
pointers (`none` = `NULL`). -/
structure HNode where
  key : Str
  value : Str
  lchild : Option Nat
  rchild : Option Nat
deriving DecidableEq, Repr

/-- The heap relevant to the tree: a finite map from addresses to node
contents, as an association list. -/
def Heap := List (Nat × HNode)

/-- Dereference an address. -/
def hget (h : Heap) (i : Nat) : Option HNode :=
  match List.find? (fun e => e.1 == i) h with
  | none => none
  | some e => some e.2

/-- `search` (src/db.c:100-132) executed against the explicit heap,
with the heap threaded through every step in statement order.  The
function reads `parent->key`, the chosen child link, and the child's
key; it contains no store to any node field, which the threading makes
visible: the heap component of the result is whatever the recursion
passes along.  `fuel` bounds the walk (the C code relies on the
acyclicity of the tree for termination); a dangling pointer, which is
undefined behaviour in C, is modelled as an absent target. -/
def searchH : Nat → Heap → Str → Nat → Option Nat × Heap
  | 0, h, _, _ => (none, h)
  | fuel + 1, h, key, parent =>
    match hget h parent with
    | none => (none, h)
    | some pn =>
      match (if strcmp key pn.key = .lt then pn.lchild else pn.rchild) with
      | none => (none, h)
      | some next =>
        match hget h next with
        | none => (none, h)
        | some cn =>
          if strcmp key cn.key = .eq then (some next, h)
          else searchH fuel h key next

/-- `db_query` (src/db.c:134-146) against the explicit heap: `search`
from the sentinel's address and copy the value out of the found node;
the result is the response-buffer contents paired with the heap after
the call. -/
def db_queryH (fuel : Nat) (h : Heap) (key : Str) (root : Nat)
    (len : Nat) : Str × Heap :=
  let res := searchH fuel h key root
  match res.1 with
  | none => (snprint len (strBytes "not found"), res.2)
  | some c =>
    match hget res.2 c with
    | none => ([], res.2)
    | some cn => (snprint len cn.value, res.2)

/-! ### Reachable database states -/

/-- Tree states reachable from the empty (sentinel-only) database by
arbitrary sequences of `db_add` and `db_remove` calls. -/
inductive Reach : DB → Prop where
  | empty : Reach emptyDB
  | add (k v : Str) {s : DB} : Reach s → Reach (db_add k v s).2
  | remove (k : Str) {s : DB} : Reach s → Reach (db_remove k s).2

/-- Reachability restricted to the keys the command interpreter can
supply to `db_add`: an `sscanf` `%255s` token is nonempty and at most
255 bytes.  `db_remove` keys stay unrestricted. -/
inductive ReachOK : DB → Prop where
  | empty : ReachOK emptyDB
  | add (k v : Str) {s : DB} (hne : k ≠ []) (hlen : k.length ≤ 255) :
      ReachOK s → ReachOK (db_add k v s).2
  | remove (k : Str) {s : DB} : ReachOK s → ReachOK (db_remove k s).2

/-! ### Properties of `strcmp` -/

theorem strcmp_eq_iff : ∀ a b : Str, strcmp a b = .eq ↔ a = b
  | [], [] => by simp [strcmp]
  | [], _ :: _ => by simp [strcmp]
  | _ :: _, [] => by simp [strcmp]
  | a :: as, b :: bs => by
    simp only [strcmp]
    split
    · have : a ≠ b := by omega
      simp [this]
    · split
      · have : a ≠ b := by omega
        simp [this]
      · have : a = b := by omega
        subst this
        simp [strcmp_eq_iff as bs]

theorem strcmp_self (a : Str) : strcmp a a = .eq := (strcmp_eq_iff a a).mpr rfl

theorem strcmp_gt_iff : ∀ a b : Str, strcmp a b = .gt ↔ strcmp b a = .lt
  | [], [] => by simp [strcmp]
  | [], _ :: _ => by simp [strcmp]
  | _ :: _, [] => by simp [strcmp]
  | a :: as, b :: bs => by
    simp only [strcmp]
    rcases Nat.lt_trichotomy a b with h | h | h
    · simp [h, Nat.not_lt_of_lt h]
    · subst h
      simp [Nat.lt_irrefl, strcmp_gt_iff as bs]
    · simp [h, Nat.not_lt_of_lt h]

/-- Trichotomy: a comparison that is neither `lt` nor `eq` is `gt`. -/
theorem strcmp_gt_of_not_lt_eq {a b : Str} (h1 : strcmp a b ≠ .lt)
    (h2 : strcmp a b ≠ .eq) : strcmp a b = .gt := by
  cases h : strcmp a b <;> simp_all

theorem ltKey_irrefl (a : Str) : ¬ ltKey a a := by
  simp [ltKey, strcmp_self]

/-- Every nonempty string compares greater than the empty string
(sentinel key), so user keys always route to the sentinel's right
subtree. -/
theorem strcmp_nil_not_lt (a : Str) : strcmp a [] ≠ .lt := by
  cases a <;> simp [strcmp]

theorem strcmp_lt_trans : ∀ (a b c : Str),
    strcmp a b = .lt → strcmp b c = .lt → strcmp a c = .lt
  | a, [], _ => fun hab _ => absurd hab (strcmp_nil_not_lt a)
  | _, _ :: _, [] => fun _ hbc => absurd hbc (strcmp_nil_not_lt _)
  | [], _ :: _, _ :: _ => fun _ _ => by simp [strcmp]
  | a :: as, b :: bs, c :: cs => by
    simp only [strcmp]
    intro hab hbc
    rcases Nat.lt_trichotomy b c with h2 | h2 | h2
    · rcases Nat.lt_trichotomy a b with h1 | h1 | h1
      · have h3 : a < c := by omega
        simp [h3]
      · subst h1
        simp [h2]
      · have h1' : ¬ a < b := by omega
        simp [h1', h1] at hab
    · subst h2
      simp only [Nat.lt_irrefl, if_false] at hbc
      rcases Nat.lt_trichotomy a b with h1 | h1 | h1
      · simp [h1]
      · subst h1
        simp only [Nat.lt_irrefl, if_false] at hab ⊢
        exact strcmp_lt_trans as bs cs hab hbc
      · have h1' : ¬ a < b := by omega
        simp [h1', h1] at hab
    · have h2' : ¬ b < c := by omega
      simp [h2', h2] at hbc

theorem ltKey_trans {a b c : Str} (hab : ltKey a b) (hbc : ltKey b c) :
    ltKey a c := strcmp_lt_trans a b c hab hbc

theorem ltKey_asymm {a b : Str} (h : ltKey a b) : ¬ ltKey b a := fun h2 =>
  ltKey_irrefl a (ltKey_trans h h2)

theorem ltKey_ne {a b : Str} (h : ltKey a b) : a ≠ b := by
  rintro rfl
  exact ltKey_irrefl a h

/-! ### Basic facts about `entries`, `keys` and `bst` -/

@[simp] theorem Tree.entries_nil : Tree.entries .nil = [] := rfl

@[simp] theorem Tree.entries_node (k v : Str) (l r : Tree) :
    Tree.entries (.node k v l r) = l.entries ++ (k, v) :: r.entries := rfl

@[simp] theorem Tree.keys_nil : Tree.keys .nil = [] := rfl

@[simp] theorem Tree.keys_node (k v : Str) (l r : Tree) :
    Tree.keys (.node k v l r) = l.keys ++ k :: r.keys := by
  simp [Tree.keys]

theorem Tree.mem_keys_of_mem_entries {t : Tree} {e : Str × Str}
    (h : e ∈ t.entries) : e.1 ∈ t.keys := List.mem_map_of_mem Prod.fst h

theorem Tree.mem_keys_iff {t : Tree} {a : Str} :
    a ∈ t.keys ↔ ∃ b, (a, b) ∈ t.entries := by
  constructor
  · intro h
    obtain ⟨⟨x, y⟩, hm, he⟩ := List.mem_map.mp h
    exact ⟨y, show (a, y) ∈ t.entries from he ▸ hm⟩
  · rintro ⟨b, hm⟩
    exact List.mem_map_of_mem Prod.fst hm

theorem Tree.entries_eq_nil_iff {t : Tree} : t.entries = [] ↔ t = .nil := by
  cases t <;> simp

@[simp] theorem bst_nil : bst .nil := trivial

theorem bst_node_iff {k v : Str} {l r : Tree} :
    bst (.node k v l r) ↔
      (∀ a ∈ l.keys, ltKey a k) ∧ (∀ a ∈ r.keys, ltKey k a) ∧ bst l ∧ bst r :=
  Iff.rfl

/-- The in-order key list of a `bst` is strictly sorted. -/
theorem bst_pairwise : ∀ {t : Tree}, bst t → t.keys.Pairwise ltKey
  | .nil, _ => by simp
  | .node k v l r, h => by
    rcases h with ⟨hl, hr, hbl, hbr⟩
    simp only [Tree.keys_node, List.pairwise_append, List.pairwise_cons]
    refine ⟨bst_pairwise hbl, ⟨hr, bst_pairwise hbr⟩, ?_⟩
    intro a ha b hb
    rcases List.mem_cons.mp hb with rfl | hb
    · exact hl a ha
    · exact ltKey_trans (hl a ha) (hr b hb)

/-- Strict BST order forces pairwise-distinct keys. -/
theorem bst_nodup {t : Tree} (h : bst t) : t.keys.Nodup := by
  have : IsIrrefl Str ltKey := ⟨ltKey_irrefl⟩
  exact (bst_pairwise h).nodup

/-- All entries of the tree have keys and values of at most 255 bytes:
what `node_constructor`'s `snprintf` copies guarantee for every stored
node. -/
def shortEntries (t : Tree) : Prop :=
  ∀ e ∈ t.entries, e.1.length ≤ 255 ∧ e.2.length ≤ 255

/-- No stored key is the empty string (the sentinel's key). -/
def keysNonempty (t : Tree) : Prop := ∀ e ∈ t.entries, e.1 ≠ []
/-- A string extending `t` compares strictly greater than `t`. -/
theorem strcmp_append_gt : ∀ (t : Str) (c : Nat) (r : Str),
    strcmp (t ++ c :: r) t = .gt
  | [], _, _ => by simp [strcmp]
  | x :: xs, c, r => by
    simp [strcmp, strcmp_append_gt xs c r]

/-! ### Behaviour of `newnode` / `node_constructor` -/

/-- For a key of at most 255 bytes and a value of at most 256, the key
is copied exactly (the value still truncates at 255). -/
theorem newnode_exact {k v : Str} (hk : k.length ≤ 255) (hv : v.length ≤ 256) :
    newnode k v = .node k (v.take 255) .nil .nil := by
  have hk' : ¬ (256 < k.length) := by omega
  have hv' : ¬ (256 < v.length) := by omega
  simp [newnode, node_constructor, MAXLEN, hk', hv', List.take_of_length_le hk]

/-- Inputs of exactly 256 bytes are accepted but truncated to 255. -/
theorem newnode_trunc {k v : Str} (hk : k.length ≤ 256) (hv : v.length ≤ 256) :
    newnode k v = .node (k.take 255) (v.take 255) .nil .nil := by
  have hk' : ¬ (256 < k.length) := by omega
  have hv' : ¬ (256 < v.length) := by omega
  simp [newnode, node_constructor, MAXLEN, hk', hv']

/-- An oversize input makes the constructor fail, so `newnode` is the
attached `NULL`. -/
theorem newnode_oversize {k v : Str} (h : 256 < k.length ∨ 256 < v.length) :
    newnode k v = .nil := by
  have h' : MAXLEN < k.length ∨ MAXLEN < v.length := by simpa [MAXLEN] using h
  unfold newnode node_constructor
  rw [if_pos h']

/-! ### One-step evaluation lemmas for the descents

`searchT`, `addT` and `removeT` share the comparison path of the C
`search`; each lemma below evaluates one layer of one of them under
the branch conditions, without unfolding anything else. -/

section StepLemmas

variable {k v w pkey pv nk nv lk lv rk rv : Str}
variable {pl pr nl nr ll lr rl rr : Tree}

theorem searchT_lt_nil (pv : Str) (pr : Tree) (hd : strcmp k pkey = .lt) :
    searchT k (.node pkey pv .nil pr) = none := by
  simp [searchT, hd]

theorem searchT_ge_nil (pv : Str) (pl : Tree) (hd : ¬ strcmp k pkey = .lt) :
    searchT k (.node pkey pv pl .nil) = none := by
  simp [searchT, hd]

theorem searchT_lt_eq (hd : strcmp k pkey = .lt) (he : strcmp k nk = .eq) :
    searchT k (.node pkey pv (.node nk nv nl nr) pr) = some nv := by
  simp [searchT, hd, he]

theorem searchT_ge_eq (hd : ¬ strcmp k pkey = .lt) (he : strcmp k nk = .eq) :
    searchT k (.node pkey pv pl (.node nk nv nl nr)) = some nv := by
  simp [searchT, hd, he]

theorem searchT_lt_rec (hd : strcmp k pkey = .lt) (he : ¬ strcmp k nk = .eq) :
    searchT k (.node pkey pv (.node nk nv nl nr) pr) =
      searchT k (.node nk nv nl nr) := by
  simp [searchT, hd, he]

theorem searchT_ge_rec (hd : ¬ strcmp k pkey = .lt) (he : ¬ strcmp k nk = .eq) :
    searchT k (.node pkey pv pl (.node nk nv nl nr)) =
      searchT k (.node nk nv nl nr) := by
  simp [searchT, hd, he]

theorem addT_lt_nil (pv : Str) (pr : Tree) (hd : strcmp k pkey = .lt) :
    addT k v (.node pkey pv .nil pr) =
      (true, .node pkey pv (newnode k v) pr) := by
  simp [addT, hd]

theorem addT_ge_nil (pv : Str) (pl : Tree) (hd : ¬ strcmp k pkey = .lt) :
    addT k v (.node pkey pv pl .nil) =
      (true, .node pkey pv pl (newnode k v)) := by
  simp [addT, hd]

theorem addT_lt_eq (hd : strcmp k pkey = .lt) (he : strcmp k nk = .eq) :
    addT k v (.node pkey pv (.node nk nv nl nr) pr) =
      (false, .node pkey pv (.node nk nv nl nr) pr) := by
  simp [addT, hd, he]

theorem addT_ge_eq (hd : ¬ strcmp k pkey = .lt) (he : strcmp k nk = .eq) :
    addT k v (.node pkey pv pl (.node nk nv nl nr)) =
      (false, .node pkey pv pl (.node nk nv nl nr)) := by
  simp [addT, hd, he]

theorem addT_lt_rec (hd : strcmp k pkey = .lt) (he : ¬ strcmp k nk = .eq) :
    addT k v (.node pkey pv (.node nk nv nl nr) pr) =
      ((addT k v (.node nk nv nl nr)).1,
        .node pkey pv (addT k v (.node nk nv nl nr)).2 pr) := by
  simp [addT, hd, he]

theorem addT_ge_rec (hd : ¬ strcmp k pkey = .lt) (he : ¬ strcmp k nk = .eq) :
    addT k v (.node pkey pv pl (.node nk nv nl nr)) =
      ((addT k v (.node nk nv nl nr)).1,
        .node pkey pv pl (addT k v (.node nk nv nl nr)).2) := by
  simp [addT, hd, he]

theorem removeT_lt_nil (pv : Str) (pr : Tree) (hd : strcmp k pkey = .lt) :
    removeT k (.node pkey pv .nil pr) = (false, .node pkey pv .nil pr) := by
  simp [removeT, hd]

theorem removeT_ge_nil (pv : Str) (pl : Tree) (hd : ¬ strcmp k pkey = .lt) :
    removeT k (.node pkey pv pl .nil) = (false, .node pkey pv pl .nil) := by
  simp [removeT, hd]

theorem removeT_lt_rec (hd : strcmp k pkey = .lt) (he : ¬ strcmp k nk = .eq) :
    removeT k (.node pkey pv (.node nk nv nl nr) pr) =
      ((removeT k (.node nk nv nl nr)).1,
        .node pkey pv (removeT k (.node nk nv nl nr)).2 pr) := by
  simp [removeT, hd, he]

theorem removeT_ge_rec (hd : ¬ strcmp k pkey = .lt) (he : ¬ strcmp k nk = .eq) :
    removeT k (.node pkey pv pl (.node nk nv nl nr)) =
      ((removeT k (.node nk nv nl nr)).1,
        .node pkey pv pl (removeT k (.node nk nv nl nr)).2) := by
  simp [removeT, hd, he]

theorem removeT_lt_norc_lt (hd : strcmp k pkey = .lt)
    (he : strcmp k nk = .eq) (hs : strcmp nk pkey = .lt) :
    removeT k (.node pkey pv (.node nk nv nl .nil) pr) =
      (true, .node pkey pv nl pr) := by
  simp [removeT, hd, he, hs]

theorem removeT_lt_norc_ge (hd : strcmp k pkey = .lt)
    (he : strcmp k nk = .eq) (hs : ¬ strcmp nk pkey = .lt) :
    removeT k (.node pkey pv (.node nk nv nl .nil) pr) =
      (true, .node pkey pv (.node nk nv nl .nil) nl) := by
  simp [removeT, hd, he, hs]

theorem removeT_ge_norc_lt (hd : ¬ strcmp k pkey = .lt)
    (he : strcmp k nk = .eq) (hs : strcmp nk pkey = .lt) :
    removeT k (.node pkey pv pl (.node nk nv nl .nil)) =
      (true, .node pkey pv nl (.node nk nv nl .nil)) := by
  simp [removeT, hd, he, hs]

theorem removeT_ge_norc_ge (hd : ¬ strcmp k pkey = .lt)
    (he : strcmp k nk = .eq) (hs : ¬ strcmp nk pkey = .lt) :
    removeT k (.node pkey pv pl (.node nk nv nl .nil)) =
      (true, .node pkey pv pl nl) := by
  simp [removeT, hd, he, hs]

theorem removeT_lt_nolc_lt (hd : strcmp k pkey = .lt)
    (he : strcmp k nk = .eq) (hs : strcmp nk pkey = .lt) :
    removeT k (.node pkey pv (.node nk nv .nil (.node rk rv rl rr)) pr) =
      (true, .node pkey pv (.node rk rv rl rr) pr) := by
  simp [removeT, hd, he, hs]

theorem removeT_lt_nolc_ge (hd : strcmp k pkey = .lt)
    (he : strcmp k nk = .eq) (hs : ¬ strcmp nk pkey = .lt) :
    removeT k (.node pkey pv (.node nk nv .nil (.node rk rv rl rr)) pr) =
      (true, .node pkey pv (.node nk nv .nil (.node rk rv rl rr))
        (.node rk rv rl rr)) := by
  simp [removeT, hd, he, hs]

theorem removeT_ge_nolc_lt (hd : ¬ strcmp k pkey = .lt)
    (he : strcmp k nk = .eq) (hs : strcmp nk pkey = .lt) :
    removeT k (.node pkey pv pl (.node nk nv .nil (.node rk rv rl rr))) =
      (true, .node pkey pv (.node rk rv rl rr)
        (.node nk nv .nil (.node rk rv rl rr))) := by
  simp [removeT, hd, he, hs]

theorem removeT_ge_nolc_ge (hd : ¬ strcmp k pkey = .lt)
    (he : strcmp k nk = .eq) (hs : ¬ strcmp nk pkey = .lt) :
    removeT k (.node pkey pv pl (.node nk nv .nil (.node rk rv rl rr))) =
      (true, .node pkey pv pl (.node rk rv rl rr)) := by
  simp [removeT, hd, he, hs]

theorem removeT_lt_succ (hd : strcmp k pkey = .lt) (he : strcmp k nk = .eq) :
    removeT k (.node pkey pv
        (.node nk nv (.node lk lv ll lr) (.node rk rv rl rr)) pr) =
      (true, .node pkey pv
        (.node ((delMin rk rv rl rr).1.take 255)
          ((delMin rk rv rl rr).2.1.take 255)
          (.node lk lv ll lr) (delMin rk rv rl rr).2.2) pr) := by
  simp [removeT, hd, he, MAXLEN]

theorem removeT_ge_succ (hd : ¬ strcmp k pkey = .lt) (he : strcmp k nk = .eq) :
    removeT k (.node pkey pv pl
        (.node nk nv (.node lk lv ll lr) (.node rk rv rl rr))) =
      (true, .node pkey pv pl
        (.node ((delMin rk rv rl rr).1.take 255)
          ((delMin rk rv rl rr).2.1.take 255)
          (.node lk lv ll lr) (delMin rk rv rl rr).2.2)) := by
  simp [removeT, hd, he, MAXLEN]

end StepLemmas

/-! ### Alignment of the three descents

`searchT`, `addT` and `removeT` follow the identical comparison path
of the C `search`; the lemmas in this section relate them on arbitrary
trees (no BST hypothesis). -/

/-- If `search` finds the key, `db_add` reports a duplicate and leaves
the tree untouched (src/db.c:159-163). -/
theorem addT_found {k w : Str} (v : Str) :
    ∀ t : Tree, searchT k t = some w → addT k v t = (false, t) := by
  intro t
  induction t with
  | nil => intro h; simp [searchT] at h
  | node pkey pv pl pr ihl ihr =>
    intro h
    by_cases hd : strcmp k pkey = .lt
    · cases pl with
      | nil => rw [searchT_lt_nil pv pr hd] at h; simp at h
      | node nk nv nl nr =>
        by_cases he : strcmp k nk = .eq
        · exact addT_lt_eq hd he
        · rw [searchT_lt_rec hd he] at h
          rw [addT_lt_rec hd he, ihl h]
    · cases pr with
      | nil => rw [searchT_ge_nil pv pl hd] at h; simp at h
      | node nk nv nl nr =>
        by_cases he : strcmp k nk = .eq
        · exact addT_ge_eq hd he
        · rw [searchT_ge_rec hd he] at h
          rw [addT_ge_rec hd he, ihr h]

/-- `db_add` succeeds exactly when `search` comes back empty. -/
theorem addT_true_iff {k v : Str} :
    ∀ t : Tree, (addT k v t).1 = true ↔ searchT k t = none := by
  intro t
  induction t with
  | nil => simp [searchT, addT]
  | node pkey pv pl pr ihl ihr =>
    by_cases hd : strcmp k pkey = .lt
    · cases pl with
      | nil => rw [searchT_lt_nil pv pr hd, addT_lt_nil pv pr hd]; simp
      | node nk nv nl nr =>
        by_cases he : strcmp k nk = .eq
        · rw [searchT_lt_eq hd he, addT_lt_eq hd he]; simp
        · rw [searchT_lt_rec hd he, addT_lt_rec hd he]; simpa using ihl
    · cases pr with
      | nil => rw [searchT_ge_nil pv pl hd, addT_ge_nil pv pl hd]; simp
      | node nk nv nl nr =>
        by_cases he : strcmp k nk = .eq
        · rw [searchT_ge_eq hd he, addT_ge_eq hd he]; simp
        · rw [searchT_ge_rec hd he, addT_ge_rec hd he]; simpa using ihr

/-- If `search` comes back empty, `db_remove` reports absence and
leaves the tree untouched (src/db.c:185-189). -/
theorem removeT_of_search_none {k : Str} :
    ∀ t : Tree, searchT k t = none → removeT k t = (false, t) := by
  intro t
  induction t with
  | nil => intro h; simp [removeT]
  | node pkey pv pl pr ihl ihr =>
    intro h
    by_cases hd : strcmp k pkey = .lt
    · cases pl with
      | nil => exact removeT_lt_nil pv pr hd
      | node nk nv nl nr =>
        by_cases he : strcmp k nk = .eq
        · rw [searchT_lt_eq hd he] at h; simp at h
        · rw [searchT_lt_rec hd he] at h
          rw [removeT_lt_rec hd he, ihl h]
    · cases pr with
      | nil => exact removeT_ge_nil pv pl hd
      | node nk nv nl nr =>
        by_cases he : strcmp k nk = .eq
        · rw [searchT_ge_eq hd he] at h; simp at h
        · rw [searchT_ge_rec hd he] at h
          rw [removeT_ge_rec hd he, ihr h]

/-- `db_add` never rewrites the parent node it starts from: the result
keeps the root's key and value (only a child link below changes). -/
theorem addT_shape (k v pkey pv : Str) (pl pr : Tree) :
    ∃ l' r', (addT k v (.node pkey pv pl pr)).2 = .node pkey pv l' r' := by
  by_cases hd : strcmp k pkey = .lt
  · cases pl with
    | nil => exact ⟨newnode k v, pr, congrArg Prod.snd (addT_lt_nil pv pr hd)⟩
    | node nk nv nl nr =>
      by_cases he : strcmp k nk = .eq
      · exact ⟨.node nk nv nl nr, pr, congrArg Prod.snd (addT_lt_eq hd he)⟩
      · exact ⟨(addT k v (.node nk nv nl nr)).2, pr,
          congrArg Prod.snd (addT_lt_rec hd he)⟩
  · cases pr with
    | nil => exact ⟨pl, newnode k v, congrArg Prod.snd (addT_ge_nil pv pl hd)⟩
    | node nk nv nl nr =>
      by_cases he : strcmp k nk = .eq
      · exact ⟨pl, .node nk nv nl nr, congrArg Prod.snd (addT_ge_eq hd he)⟩
      · exact ⟨pl, (addT k v (.node nk nv nl nr)).2,
          congrArg Prod.snd (addT_ge_rec hd he)⟩

/-- Likewise for `db_remove`: the starting parent's key and value
survive (the sentinel is never the deleted node). -/
theorem removeT_shape (k pkey pv : Str) (pl pr : Tree) :
    ∃ l' r', (removeT k (.node pkey pv pl pr)).2 = .node pkey pv l' r' := by
  by_cases hd : strcmp k pkey = .lt
  · cases pl with
    | nil => exact ⟨.nil, pr, congrArg Prod.snd (removeT_lt_nil pv pr hd)⟩
    | node nk nv nl nr =>
      by_cases he : strcmp k nk = .eq
      · cases nr with
        | nil =>
          by_cases hs : strcmp nk pkey = .lt
          · exact ⟨nl, pr, congrArg Prod.snd (removeT_lt_norc_lt hd he hs)⟩
          · exact ⟨.node nk nv nl .nil, nl,
              congrArg Prod.snd (removeT_lt_norc_ge hd he hs)⟩
        | node rk rv rl rr =>
          cases nl with
          | nil =>
            by_cases hs : strcmp nk pkey = .lt
            · exact ⟨.node rk rv rl rr, pr,
                congrArg Prod.snd (removeT_lt_nolc_lt hd he hs)⟩
            · exact ⟨.node nk nv .nil (.node rk rv rl rr), .node rk rv rl rr,
                congrArg Prod.snd (removeT_lt_nolc_ge hd he hs)⟩
          | node lk lv ll lr =>
            exact ⟨.node ((delMin rk rv rl rr).1.take 255)
                ((delMin rk rv rl rr).2.1.take 255)
                (.node lk lv ll lr) (delMin rk rv rl rr).2.2, pr,
              congrArg Prod.snd (removeT_lt_succ hd he)⟩
      · exact ⟨(removeT k (.node nk nv nl nr)).2, pr,
          congrArg Prod.snd (removeT_lt_rec hd he)⟩
  · cases pr with
    | nil => exact ⟨pl, .nil, congrArg Prod.snd (removeT_ge_nil pv pl hd)⟩
    | node nk nv nl nr =>
      by_cases he : strcmp k nk = .eq
      · cases nr with
        | nil =>
          by_cases hs : strcmp nk pkey = .lt
          · exact ⟨nl, .node nk nv nl .nil,
              congrArg Prod.snd (removeT_ge_norc_lt hd he hs)⟩
          · exact ⟨pl, nl, congrArg Prod.snd (removeT_ge_norc_ge hd he hs)⟩
        | node rk rv rl rr =>
          cases nl with
          | nil =>
            by_cases hs : strcmp nk pkey = .lt
            · exact ⟨.node rk rv rl rr, .node nk nv .nil (.node rk rv rl rr),
                congrArg Prod.snd (removeT_ge_nolc_lt hd he hs)⟩
            · exact ⟨pl, .node rk rv rl rr,
                congrArg Prod.snd (removeT_ge_nolc_ge hd he hs)⟩
          | node lk lv ll lr =>
            exact ⟨pl, .node ((delMin rk rv rl rr).1.take 255)
                ((delMin rk rv rl rr).2.1.take 255)
                (.node lk lv ll lr) (delMin rk rv rl rr).2.2,
              congrArg Prod.snd (removeT_ge_succ hd he)⟩
      · exact ⟨pl, (removeT k (.node nk nv nl nr)).2,
          congrArg Prod.snd (removeT_ge_rec hd he)⟩

/-- When the constructor rejects an oversize input, `db_add` writes
`NULL` over the already-`NULL` child link: the tree does not change. -/
theorem addT_oversize {k v : Str} (h : 256 < k.length ∨ 256 < v.length) :
    ∀ t : Tree, (addT k v t).2 = t := by
  intro t
  induction t with
  | nil => simp [addT]
  | node pkey pv pl pr ihl ihr =>
    by_cases hd : strcmp k pkey = .lt
    · cases pl with
      | nil => rw [addT_lt_nil pv pr hd, newnode_oversize h]
      | node nk nv nl nr =>
        by_cases he : strcmp k nk = .eq
        · rw [addT_lt_eq hd he]
        · simp [addT_lt_rec hd he, ihl]
    · cases pr with
      | nil => rw [addT_ge_nil pv pl hd, newnode_oversize h]
      | node nk nv nl nr =>
        by_cases he : strcmp k nk = .eq
        · rw [addT_ge_eq hd he]
        · simp [addT_ge_rec hd he, ihr]

/-- A string compares strictly greater than any proper prefix obtained
by `take`. -/
theorem strcmp_take_gt {k : Str} {n : Nat} (h : n < k.length) :
    strcmp k (k.take n) = .gt := by
  cases hd : k.drop n with
  | nil =>
    have := congrArg List.length hd
    simp at this
    omega
  | cons c r =>
    have h2 : k = k.take n ++ c :: r := by
      rw [← hd, List.take_append_drop]
    calc strcmp k (k.take n) = strcmp (k.take n ++ c :: r) (k.take n) := by
          rw [← h2]
      _ = .gt := strcmp_append_gt (k.take n) c r

/-- Inserting and then deleting the same key restores the tree exactly:
the deleted node is the leaf the insertion attached, and the splice
writes back the `NULL` it replaced.  Holds for keys of at most 255
bytes (stored exactly) and any value the constructor accepts. -/
theorem addT_restore {k v : Str} (hk : k.length ≤ 255) (hv : v.length ≤ 256) :
    ∀ t : Tree, t ≠ .nil → searchT k t = none →
      removeT k (addT k v t).2 = (true, t) := by
  intro t
  induction t with
  | nil => intro h _; exact absurd rfl h
  | node pkey pv pl pr ihl ihr =>
    intro _ h
    by_cases hd : strcmp k pkey = .lt
    · cases pl with
      | nil =>
        simp only [addT_lt_nil pv pr hd, newnode_exact hk hv]
        exact removeT_lt_norc_lt hd (strcmp_self k) hd
      | node nk nv nl nr =>
        by_cases he : strcmp k nk = .eq
        · rw [searchT_lt_eq hd he] at h; simp at h
        · rw [searchT_lt_rec hd he] at h
          simp only [addT_lt_rec hd he]
          obtain ⟨l', r', hshape⟩ := addT_shape k v nk nv nl nr
          rw [hshape, removeT_lt_rec hd he, ← hshape, ihl (by simp) h]
    · cases pr with
      | nil =>
        simp only [addT_ge_nil pv pl hd, newnode_exact hk hv]
        exact removeT_ge_norc_ge hd (strcmp_self k) hd
      | node nk nv nl nr =>
        by_cases he : strcmp k nk = .eq
        · rw [searchT_ge_eq hd he] at h; simp at h
        · rw [searchT_ge_rec hd he] at h
          simp only [addT_ge_rec hd he]
          obtain ⟨l', r', hshape⟩ := addT_shape k v nk nv nl nr
          rw [hshape, removeT_ge_rec hd he, ← hshape, ihr (by simp) h]

/-- A key of exactly 256 bytes is stored truncated to 255 bytes, so a
subsequent `search` for the untruncated key walks past the new node
(the full key compares greater than its prefix) and still fails. -/
theorem addT_search256 {k v : Str} (hk : k.length = 256) (hv : v.length ≤ 256) :
    ∀ t : Tree, t ≠ .nil → searchT k t = none →
      searchT k (addT k v t).2 = none := by
  intro t
  have hgt : strcmp k (k.take 255) = .gt := strcmp_take_gt (by omega)
  have hne : ¬ strcmp k (k.take 255) = .eq := by rw [hgt]; simp
  have hnl : ¬ strcmp k (k.take 255) = .lt := by rw [hgt]; simp
  have hnn : newnode k v = .node (k.take 255) (v.take 255) .nil .nil :=
    newnode_trunc (by omega) hv
  induction t with
  | nil => intro h _; exact absurd rfl h
  | node pkey pv pl pr ihl ihr =>
    intro _ h
    by_cases hd : strcmp k pkey = .lt
    · cases pl with
      | nil =>
        simp only [addT_lt_nil pv pr hd, hnn]
        rw [searchT_lt_rec hd hne, searchT_ge_nil _ _ hnl]
      | node nk nv nl nr =>
        by_cases he : strcmp k nk = .eq
        · rw [searchT_lt_eq hd he] at h; simp at h
        · rw [searchT_lt_rec hd he] at h
          simp only [addT_lt_rec hd he]
          obtain ⟨l', r', hshape⟩ := addT_shape k v nk nv nl nr
          rw [hshape, searchT_lt_rec hd he, ← hshape, ihl (by simp) h]
    · cases pr with
      | nil =>
        simp only [addT_ge_nil pv pl hd, hnn]
        rw [searchT_ge_rec hd hne, searchT_ge_nil _ _ hnl]
      | node nk nv nl nr =>
        by_cases he : strcmp k nk = .eq
        · rw [searchT_ge_eq hd he] at h; simp at h
        · rw [searchT_ge_rec hd he] at h
          simp only [addT_ge_rec hd he]
          obtain ⟨l', r', hshape⟩ := addT_shape k v nk nv nl nr
          rw [hshape, searchT_ge_rec hd he, ← hshape, ihr (by simp) h]

/-! ### Glue between the `DB` wrappers and the descents -/

theorem unhead_head (s : DB) : unhead s.head = s := rfl

theorem unhead_head_of_node {t l r : Tree} (h : t = .node [] [] l r) :
    (unhead t).head = t := by subst h; rfl

/-- Insert followed by delete of the same key restores the database
state exactly, for any key/value the constructor accepts with the key
stored unmodified. -/
theorem db_add_remove_restore {k v : Str} (hk : k.length ≤ 255)
    (hv : v.length ≤ 256) (s : DB) (h : db_lookup k s = none) :
    db_remove k (db_add k v s).2 = (true, s) := by
  have hres := addT_restore hk hv s.head (by simp [DB.head]) h
  obtain ⟨l1, r1, h1⟩ := addT_shape k v [] [] s.hl s.hr
  have hsh : (db_add k v s).2.head = (addT k v s.head).2 :=
    unhead_head_of_node (l := l1) (r := r1) h1
  show ((removeT k (db_add k v s).2.head).1,
    unhead (removeT k (db_add k v s).2.head).2) = (true, s)
  rw [hsh, hres]
  rfl

/-- The insert/delete round trip: whenever `db_add` reports success,
deleting the key and then looking it up yields "not found" — whatever
the starting state and whatever the input lengths (exact storage,
256-byte truncation, or constructor failure). -/
theorem db_roundtrip_lookup (s : DB) (k v : Str)
    (h : (db_add k v s).1 = true) :
    db_lookup k (db_remove k (db_add k v s).2).2 = none := by
  have hs : searchT k s.head = none := (addT_true_iff s.head).mp h
  by_cases hov : 256 < k.length ∨ 256 < v.length
  · have ht : (addT k v s.head).2 = s.head := addT_oversize hov s.head
    have hstate : (db_add k v s).2 = s := by
      show unhead (addT k v s.head).2 = s
      rw [ht, unhead_head]
    rw [hstate]
    have hrem : removeT k s.head = (false, s.head) :=
      removeT_of_search_none s.head hs
    have hstate2 : (db_remove k s).2 = s := by
      show unhead (removeT k s.head).2 = s
      rw [hrem]
      exact unhead_head s
    rw [hstate2]
    exact hs
  · push_neg at hov
    by_cases hk : k.length ≤ 255
    · have hres := db_add_remove_restore hk hov.2 s hs
      rw [hres]
      exact hs
    · have hk256 : k.length = 256 := by omega
      have hs2 : searchT k (addT k v s.head).2 = none :=
        addT_search256 hk256 hov.2 s.head (by simp [DB.head]) hs
      obtain ⟨l1, r1, h1⟩ := addT_shape k v [] [] s.hl s.hr
      have hsh : (db_add k v s).2.head = (addT k v s.head).2 :=
        unhead_head_of_node h1
      have hs2' : searchT k (db_add k v s).2.head = none := by rw [hsh]; exact hs2
      have hrem : removeT k (db_add k v s).2.head =
          (false, (db_add k v s).2.head) :=
        removeT_of_search_none _ hs2'
      have hstate2 : (db_remove k (db_add k v s).2).2 = (db_add k v s).2 := by
        show unhead (removeT k (db_add k v s).2.head).2 = (db_add k v s).2
        rw [hrem]
        exact unhead_head (db_add k v s).2
      rw [hstate2]
      exact hs2'

/-- Duplicate insert: when the key is present, `db_add` returns 0 and
the state is untouched. -/
theorem db_add_duplicate (s : DB) (k v1 v2 : Str)
    (h : db_lookup k s = some v1) : db_add k v2 s = (false, s) := by
  have := addT_found v2 s.head h
  show ((addT k v2 s.head).1, unhead (addT k v2 s.head).2) = (false, s)
  rw [this]
  exact congrArg (Prod.mk false) (unhead_head s)

/-! ### The successor walk `delMin` -/

/-- Unlinking the leftmost node removes exactly the first in-order
entry: structural fact, no ordering needed. -/
theorem delMin_entries : ∀ (l : Tree) (k v : Str) (r : Tree),
    Tree.entries (.node k v l r) =
      ((delMin k v l r).1, (delMin k v l r).2.1) ::
        (delMin k v l r).2.2.entries
  | .nil, k, v, r => by simp [delMin]
  | .node lk lv ll lr, k, v, r => by
    have ih := delMin_entries ll lk lv lr
    simp only [Tree.entries_node] at ih
    simp only [delMin, Tree.entries_node]
    rw [ih]
    simp

theorem delMin_entry_mem (l : Tree) (k v : Str) (r : Tree) :
    ((delMin k v l r).1, (delMin k v l r).2.1) ∈
      Tree.entries (.node k v l r) := by
  rw [delMin_entries]
  exact List.mem_cons_self _ _

theorem delMin_entries_subset (l : Tree) (k v : Str) (r : Tree) {e : Str × Str}
    (h : e ∈ (delMin k v l r).2.2.entries) :
    e ∈ Tree.entries (.node k v l r) := by
  rw [delMin_entries]
  exact List.mem_cons_of_mem _ h

/-- The tree left behind by the successor walk is still a BST. -/
theorem delMin_bst : ∀ (l : Tree) (k v : Str) (r : Tree),
    bst (.node k v l r) → bst (delMin k v l r).2.2
  | .nil, k, v, r, h => h.2.2.2
  | .node lk lv ll lr, k, v, r, h => by
    obtain ⟨hl, hr, hbl, hbr⟩ := h
    simp only [delMin]
    refine ⟨?_, hr, delMin_bst ll lk lv lr hbl, hbr⟩
    intro a ha
    apply hl
    obtain ⟨b, hb⟩ := Tree.mem_keys_iff.mp ha
    exact Tree.mem_keys_of_mem_entries (delMin_entries_subset ll lk lv lr hb)

/-- The unlinked successor key is strictly below every remaining key of
its subtree (it is the in-order head of a strictly sorted key list). -/
theorem delMin_min {rk rv : Str} {rl rr : Tree}
    (hb : bst (.node rk rv rl rr)) :
    ∀ a ∈ (delMin rk rv rl rr).2.2.keys, ltKey (delMin rk rv rl rr).1 a := by
  have hp := bst_pairwise hb
  have hk : (Tree.node rk rv rl rr).keys =
      (delMin rk rv rl rr).1 :: (delMin rk rv rl rr).2.2.keys := by
    simp [Tree.keys, delMin_entries rl rk rv rr]
  rw [hk] at hp
  exact (List.pairwise_cons.mp hp).1

theorem delMin_key_mem {rk rv : Str} {rl rr : Tree} :
    (delMin rk rv rl rr).1 ∈ (Tree.node rk rv rl rr).keys :=
  Tree.mem_keys_of_mem_entries (delMin_entry_mem rl rk rv rr)

/-! ### Helpers about filtered entry lists -/

theorem filter_entries_eq_self {t : Tree} {k : Str} (h : k ∉ t.keys) :
    t.entries.filter (fun e => decide (e.1 ≠ k)) = t.entries := by
  rw [List.filter_eq_self]
  intro e he
  simp only [decide_eq_true_eq]
  intro hek
  exact h (hek ▸ Tree.mem_keys_of_mem_entries he)

theorem keys_subset_of_filter {t' t : Tree} {k : Str}
    (h : t'.entries = t.entries.filter (fun e => decide (e.1 ≠ k))) :
    ∀ a ∈ t'.keys, a ∈ t.keys := by
  intro a ha
  obtain ⟨b, hb⟩ := Tree.mem_keys_iff.mp ha
  rw [h] at hb
  exact Tree.mem_keys_of_mem_entries (List.mem_of_mem_filter hb)

theorem shortEntries_node {a b : Str} {l r : Tree}
    (h : shortEntries (.node a b l r)) :
    (a.length ≤ 255 ∧ b.length ≤ 255) ∧ shortEntries l ∧ shortEntries r := by
  refine ⟨h (a, b) (by simp), fun e he => h e ?_, fun e he => h e ?_⟩ <;>
    simp [he]

/-- Membership in a node's key list splits into the three regions. -/
theorem mem_keys_node_elim {k nk nv : Str} {nl nr : Tree}
    (hmem : k ∈ (Tree.node nk nv nl nr).keys) (hne : k ≠ nk)
    (hnr : k ∉ nr.keys) : k ∈ nl.keys := by
  simp only [Tree.keys_node, List.mem_append, List.mem_cons] at hmem
  tauto

theorem mem_keys_node_elim_r {k nk nv : Str} {nl nr : Tree}
    (hmem : k ∈ (Tree.node nk nv nl nr).keys) (hne : k ≠ nk)
    (hnl : k ∉ nl.keys) : k ∈ nr.keys := by
  simp only [Tree.keys_node, List.mem_append, List.mem_cons] at hmem
  tauto

/-- The heart of the delete algorithm: when the key is present (on the
side the descent searches) in a BST of short entries, `db_remove`
succeeds and the resulting subtrees carry exactly the original entries
with the key's entry removed, and are again BSTs. -/
theorem removeT_found {k : Str} :
    ∀ t : Tree, ∀ pkey pv : Str, ∀ pl pr : Tree, t = .node pkey pv pl pr →
      bst pl → bst pr → shortEntries pl → shortEntries pr →
      (strcmp k pkey = .lt → k ∈ pl.keys ∧ k ∉ pr.keys) →
      (¬ strcmp k pkey = .lt → k ∈ pr.keys ∧ k ∉ pl.keys) →
      (removeT k t).1 = true ∧
      ∃ pl' pr', (removeT k t).2 = .node pkey pv pl' pr' ∧
        pl'.entries = pl.entries.filter (fun e => decide (e.1 ≠ k)) ∧
        pr'.entries = pr.entries.filter (fun e => decide (e.1 ≠ k)) ∧
        bst pl' ∧ bst pr' := by
  intro t
  induction t with
  | nil => intro pkey pv pl pr h; exact absurd h (by simp)
  | node qkey qv ql qr ihl ihr =>
    intro pkey pv pl pr heq hbl hbr hsl hsr hdir1 hdir2
    injection heq with h1 h2 h3 h4
    subst h1; subst h2; subst h3; subst h4
    by_cases hd : strcmp k qkey = .lt
    · obtain ⟨hmem, hnotr⟩ := hdir1 hd
      have hqr_filter : qr.entries.filter (fun e => decide (e.1 ≠ k)) =
          qr.entries := filter_entries_eq_self hnotr
      cases ql with
      | nil => simp [Tree.keys] at hmem
      | node nk nv nl nr =>
        obtain ⟨hlk, hrk, hbnl, hbnr⟩ := hbl
        obtain ⟨⟨hnk255, hnv255⟩, hsnl, hsnr⟩ := shortEntries_node hsl
        by_cases he : strcmp k nk = .eq
        · have hknk : k = nk := (strcmp_eq_iff k nk).mp he
          subst hknk
          have hknl : k ∉ nl.keys := fun hx => ltKey_irrefl k (hlk k hx)
          have hknr : k ∉ nr.keys := fun hx => ltKey_irrefl k (hrk k hx)
          cases nr with
          | nil =>
            refine ⟨?_, nl, qr, ?_, ?_, hqr_filter.symm, hbnl, hbr⟩
            · simp [removeT_lt_norc_lt hd (strcmp_self k) hd]
            · simp [removeT_lt_norc_lt hd (strcmp_self k) hd]
            · rw [Tree.entries_node, List.filter_append,
                filter_entries_eq_self hknl]
              simp
          | node rk rv rl rr =>
            cases nl with
            | nil =>
              refine ⟨?_, .node rk rv rl rr, qr, ?_, ?_, hqr_filter.symm,
                hbnr, hbr⟩
              · simp [removeT_lt_nolc_lt hd (strcmp_self k) hd]
              · simp [removeT_lt_nolc_lt hd (strcmp_self k) hd]
              · show (Tree.node rk rv rl rr).entries =
                  (Tree.nil.entries ++ (k, nv) ::
                    (Tree.node rk rv rl rr).entries).filter
                    (fun e => decide (e.1 ≠ k))
                rw [Tree.entries_nil, List.nil_append, List.filter_cons]
                have hself : (decide ¬ (k, nv).1 = k) = false := by simp
                simp only [ne_eq, hself, Bool.false_eq_true, if_false]
                exact (filter_entries_eq_self hknr).symm
            | node lk lv ll lr =>
              have hdmem : ((delMin rk rv rl rr).1, (delMin rk rv rl rr).2.1)
                  ∈ (Tree.node rk rv rl rr).entries :=
                delMin_entry_mem rl rk rv rr
              have hlen := hsnr _ hdmem
              have htk : (delMin rk rv rl rr).1.take 255 =
                  (delMin rk rv rl rr).1 := List.take_of_length_le hlen.1
              have htv : (delMin rk rv rl rr).2.1.take 255 =
                  (delMin rk rv rl rr).2.1 := List.take_of_length_le hlen.2
              refine ⟨?_, .node (delMin rk rv rl rr).1 (delMin rk rv rl rr).2.1
                  (.node lk lv ll lr) (delMin rk rv rl rr).2.2, qr, ?_, ?_,
                hqr_filter.symm, ?_, hbr⟩
              · simp [removeT_lt_succ hd (strcmp_self k)]
              · simp [removeT_lt_succ hd (strcmp_self k), htk, htv]
              · show (Tree.node lk lv ll lr).entries ++
                  ((delMin rk rv rl rr).1, (delMin rk rv rl rr).2.1) ::
                    (delMin rk rv rl rr).2.2.entries =
                  ((Tree.node lk lv ll lr).entries ++ (k, nv) ::
                    (Tree.node rk rv rl rr).entries).filter
                    (fun e => decide (e.1 ≠ k))
                rw [List.filter_append, filter_entries_eq_self hknl]
                congr 1
                rw [List.filter_cons]
                have hself : (decide ¬ (k, nv).1 = k) = false := by simp
                simp only [ne_eq, hself, Bool.false_eq_true, if_false]
                rw [filter_entries_eq_self hknr]
                exact (delMin_entries rl rk rv rr).symm
              · refine ⟨?_, delMin_min hbnr, hbnl,
                  delMin_bst rl rk rv rr hbnr⟩
                intro a ha
                exact ltKey_trans (hlk a ha) (hrk _ delMin_key_mem)
        · have hknk : k ≠ nk := fun hx => he (hx ▸ strcmp_self k)
          have hdir1' : strcmp k nk = .lt → k ∈ nl.keys ∧ k ∉ nr.keys := by
            intro hlt
            have hknr : k ∉ nr.keys :=
              fun hx => ltKey_irrefl k (ltKey_trans hlt (hrk k hx))
            exact ⟨mem_keys_node_elim hmem hknk hknr, hknr⟩
          have hdir2' : ¬ strcmp k nk = .lt → k ∈ nr.keys ∧ k ∉ nl.keys := by
            intro hnlt
            have hnkk : ltKey nk k :=
              (strcmp_gt_iff k nk).mp (strcmp_gt_of_not_lt_eq hnlt he)
            have hknl : k ∉ nl.keys :=
              fun hx => ltKey_irrefl k (ltKey_trans (hlk k hx) hnkk)
            exact ⟨mem_keys_node_elim_r hmem hknk hknl, hknl⟩
          obtain ⟨hb1, pl'', pr'', heq2, hent1, hent2, hbst1, hbst2⟩ :=
            ihl nk nv nl nr rfl hbnl hbnr hsnl hsnr hdir1' hdir2'
          refine ⟨?_, .node nk nv pl'' pr'', qr, ?_, ?_, hqr_filter.symm,
            ?_, hbr⟩
          · simp [removeT_lt_rec hd he, hb1]
          · simp [removeT_lt_rec hd he, heq2]
          · show pl''.entries ++ (nk, nv) :: pr''.entries = _
            rw [hent1, hent2, Tree.entries_node, List.filter_append,
              List.filter_cons]
            have hok : (decide ¬ (nk, nv).1 = k) = true := by
              simpa using hknk.symm
            simp only [ne_eq, hok, if_true]
          · refine ⟨?_, ?_, hbst1, hbst2⟩
            · intro a ha
              exact hlk a (keys_subset_of_filter hent1 a ha)
            · intro a ha
              exact hrk a (keys_subset_of_filter hent2 a ha)
    · obtain ⟨hmem, hnotl⟩ := hdir2 hd
      have hql_filter : ql.entries.filter (fun e => decide (e.1 ≠ k)) =
          ql.entries := filter_entries_eq_self hnotl
      cases qr with
      | nil => simp [Tree.keys] at hmem
      | node nk nv nl nr =>
        obtain ⟨hlk, hrk, hbnl, hbnr⟩ := hbr
        obtain ⟨⟨hnk255, hnv255⟩, hsnl, hsnr⟩ := shortEntries_node hsr
        by_cases he : strcmp k nk = .eq
        · have hknk : k = nk := (strcmp_eq_iff k nk).mp he
          subst hknk
          have hknl : k ∉ nl.keys := fun hx => ltKey_irrefl k (hlk k hx)
          have hknr : k ∉ nr.keys := fun hx => ltKey_irrefl k (hrk k hx)
          cases nr with
          | nil =>
            refine ⟨?_, ql, nl, ?_, hql_filter.symm, ?_, hbl, hbnl⟩
            · simp [removeT_ge_norc_ge hd (strcmp_self k) hd]
            · simp [removeT_ge_norc_ge hd (strcmp_self k) hd]
            · rw [Tree.entries_node, List.filter_append,
                filter_entries_eq_self hknl]
              simp
          | node rk rv rl rr =>
            cases nl with
            | nil =>
              refine ⟨?_, ql, .node rk rv rl rr, ?_, hql_filter.symm, ?_,
                hbl, hbnr⟩
              · simp [removeT_ge_nolc_ge hd (strcmp_self k) hd]
              · simp [removeT_ge_nolc_ge hd (strcmp_self k) hd]
              · show (Tree.node rk rv rl rr).entries =
                  (Tree.nil.entries ++ (k, nv) ::
                    (Tree.node rk rv rl rr).entries).filter
                    (fun e => decide (e.1 ≠ k))
                rw [Tree.entries_nil, List.nil_append, List.filter_cons]
                have hself : (decide ¬ (k, nv).1 = k) = false := by simp
                simp only [ne_eq, hself, Bool.false_eq_true, if_false]
                exact (filter_entries_eq_self hknr).symm
            | node lk lv ll lr =>
              have hdmem : ((delMin rk rv rl rr).1, (delMin rk rv rl rr).2.1)
                  ∈ (Tree.node rk rv rl rr).entries :=
                delMin_entry_mem rl rk rv rr
              have hlen := hsnr _ hdmem
              have htk : (delMin rk rv rl rr).1.take 255 =
                  (delMin rk rv rl rr).1 := List.take_of_length_le hlen.1
              have htv : (delMin rk rv rl rr).2.1.take 255 =
                  (delMin rk rv rl rr).2.1 := List.take_of_length_le hlen.2
              refine ⟨?_, ql, .node (delMin rk rv rl rr).1
                  (delMin rk rv rl rr).2.1 (.node lk lv ll lr)
                  (delMin rk rv rl rr).2.2, ?_, hql_filter.symm, ?_,
                hbl, ?_⟩
              · simp [removeT_ge_succ hd (strcmp_self k)]
              · simp [removeT_ge_succ hd (strcmp_self k), htk, htv]
              · show (Tree.node lk lv ll lr).entries ++
                  ((delMin rk rv rl rr).1, (delMin rk rv rl rr).2.1) ::
                    (delMin rk rv rl rr).2.2.entries =
                  ((Tree.node lk lv ll lr).entries ++ (k, nv) ::
                    (Tree.node rk rv rl rr).entries).filter
                    (fun e => decide (e.1 ≠ k))
                rw [List.filter_append, filter_entries_eq_self hknl]
                congr 1
                rw [List.filter_cons]
                have hself : (decide ¬ (k, nv).1 = k) = false := by simp
                simp only [ne_eq, hself, Bool.false_eq_true, if_false]
                rw [filter_entries_eq_self hknr]
                exact (delMin_entries rl rk rv rr).symm
              · refine ⟨?_, delMin_min hbnr, hbnl,
                  delMin_bst rl rk rv rr hbnr⟩
                intro a ha
                exact ltKey_trans (hlk a ha) (hrk _ delMin_key_mem)
        · have hknk : k ≠ nk := fun hx => he (hx ▸ strcmp_self k)
          have hdir1' : strcmp k nk = .lt → k ∈ nl.keys ∧ k ∉ nr.keys := by
            intro hlt
            have hknr : k ∉ nr.keys :=
              fun hx => ltKey_irrefl k (ltKey_trans hlt (hrk k hx))
            exact ⟨mem_keys_node_elim hmem hknk hknr, hknr⟩
          have hdir2' : ¬ strcmp k nk = .lt → k ∈ nr.keys ∧ k ∉ nl.keys := by
            intro hnlt
            have hnkk : ltKey nk k :=
              (strcmp_gt_iff k nk).mp (strcmp_gt_of_not_lt_eq hnlt he)
            have hknl : k ∉ nl.keys :=
              fun hx => ltKey_irrefl k (ltKey_trans (hlk k hx) hnkk)
            exact ⟨mem_keys_node_elim_r hmem hknk hknl, hknl⟩
          obtain ⟨hb1, pl'', pr'', heq2, hent1, hent2, hbst1, hbst2⟩ :=
            ihr nk nv nl nr rfl hbnl hbnr hsnl hsnr hdir1' hdir2'
          refine ⟨?_, ql, .node nk nv pl'' pr'', ?_, hql_filter.symm, ?_,
            hbl, ?_⟩
          · simp [removeT_ge_rec hd he, hb1]
          · simp [removeT_ge_rec hd he, heq2]
          · show pl''.entries ++ (nk, nv) :: pr''.entries = _
            rw [hent1, hent2, Tree.entries_node, List.filter_append,
              List.filter_cons]
            have hok : (decide ¬ (nk, nv).1 = k) = true := by
              simpa using hknk.symm
            simp only [ne_eq, hok, if_true]
          · refine ⟨?_, ?_, hbst1, hbst2⟩
            · intro a ha
              exact hlk a (keys_subset_of_filter hent1 a ha)
            · intro a ha
              exact hrk a (keys_subset_of_filter hent2 a ha)

/-- If the key is on neither side of the parent, the descent fails. -/
theorem searchT_none_of_not_mem {k : Str} :
    ∀ t : Tree, ∀ pkey pv : Str, ∀ pl pr : Tree, t = .node pkey pv pl pr →
      k ∉ pl.keys → k ∉ pr.keys → searchT k t = none := by
  intro t
  induction t with
  | nil => intro pkey pv pl pr h; exact absurd h (by simp)
  | node qkey qv ql qr ihl ihr =>
    intro pkey pv pl pr heq hnl hnr
    injection heq with h1 h2 h3 h4
    subst h1; subst h2; subst h3; subst h4
    by_cases hd : strcmp k qkey = .lt
    · cases ql with
      | nil => exact searchT_lt_nil qv qr hd
      | node nk nv nl nr =>
        have hne : ¬ strcmp k nk = .eq := by
          intro he
          exact hnl ((strcmp_eq_iff k nk).mp he ▸ (by simp : nk ∈
            (Tree.node nk nv nl nr).keys))
        rw [searchT_lt_rec hd hne]
        exact ihl nk nv nl nr rfl
          (fun hx => hnl (by simp [hx]))
          (fun hx => hnl (by simp [hx]))
    · cases qr with
      | nil => exact searchT_ge_nil qv ql hd
      | node nk nv nl nr =>
        have hne : ¬ strcmp k nk = .eq := by
          intro he
          exact hnr ((strcmp_eq_iff k nk).mp he ▸ (by simp : nk ∈
            (Tree.node nk nv nl nr).keys))
        rw [searchT_ge_rec hd hne]
        exact ihr nk nv nl nr rfl
          (fun hx => hnr (by simp [hx]))
          (fun hx => hnr (by simp [hx]))

/-- If the key is present on the side the descent searches of a BST,
the descent finds it. -/
theorem searchT_some_of_mem {k : Str} :
    ∀ t : Tree, ∀ pkey pv : Str, ∀ pl pr : Tree, t = .node pkey pv pl pr →
      bst pl → bst pr →
      (strcmp k pkey = .lt → k ∈ pl.keys ∧ k ∉ pr.keys) →
      (¬ strcmp k pkey = .lt → k ∈ pr.keys ∧ k ∉ pl.keys) →
      ∃ w, searchT k t = some w := by
  intro t
  induction t with
  | nil => intro pkey pv pl pr h; exact absurd h (by simp)
  | node qkey qv ql qr ihl ihr =>
    intro pkey pv pl pr heq hbl hbr hdir1 hdir2
    injection heq with h1 h2 h3 h4
    subst h1; subst h2; subst h3; subst h4
    by_cases hd : strcmp k qkey = .lt
    · obtain ⟨hmem, -⟩ := hdir1 hd
      cases ql with
      | nil => simp [Tree.keys] at hmem
      | node nk nv nl nr =>
        obtain ⟨hlk, hrk, hbnl, hbnr⟩ := hbl
        by_cases he : strcmp k nk = .eq
        · exact ⟨nv, searchT_lt_eq hd he⟩
        · have hknk : k ≠ nk := fun hx => he (hx ▸ strcmp_self k)
          rw [searchT_lt_rec hd he]
          refine ihl nk nv nl nr rfl hbnl hbnr ?_ ?_
          · intro hlt
            have hknr : k ∉ nr.keys :=
              fun hx => ltKey_irrefl k (ltKey_trans hlt (hrk k hx))
            exact ⟨mem_keys_node_elim hmem hknk hknr, hknr⟩
          · intro hnlt
            have hnkk : ltKey nk k :=
              (strcmp_gt_iff k nk).mp (strcmp_gt_of_not_lt_eq hnlt he)
            have hknl : k ∉ nl.keys :=
              fun hx => ltKey_irrefl k (ltKey_trans (hlk k hx) hnkk)
            exact ⟨mem_keys_node_elim_r hmem hknk hknl, hknl⟩
    · obtain ⟨hmem, -⟩ := hdir2 hd
      cases qr with
      | nil => simp [Tree.keys] at hmem
      | node nk nv nl nr =>
        obtain ⟨hlk, hrk, hbnl, hbnr⟩ := hbr
        by_cases he : strcmp k nk = .eq
        · exact ⟨nv, searchT_ge_eq hd he⟩
        · have hknk : k ≠ nk := fun hx => he (hx ▸ strcmp_self k)
          rw [searchT_ge_rec hd he]
          refine ihr nk nv nl nr rfl hbnl hbnr ?_ ?_
          · intro hlt
            have hknr : k ∉ nr.keys :=
              fun hx => ltKey_irrefl k (ltKey_trans hlt (hrk k hx))
            exact ⟨mem_keys_node_elim hmem hknk hknr, hknr⟩
          · intro hnlt
            have hnkk : ltKey nk k :=
              (strcmp_gt_iff k nk).mp (strcmp_gt_of_not_lt_eq hnlt he)
            have hknl : k ∉ nl.keys :=
              fun hx => ltKey_irrefl k (ltKey_trans (hlk k hx) hnkk)
            exact ⟨mem_keys_node_elim_r hmem hknk hknl, hknl⟩

/-- Inserting an absent key of at most 255 bytes (with a value the
constructor accepts): the new leaf carries `(k, v.take 255)`, lands on
the side the comparisons dictate, and both subtrees remain BSTs. -/
theorem addT_absent {k v : Str} (hk : k.length ≤ 255) (hv : v.length ≤ 256) :
    ∀ t : Tree, ∀ pkey pv : Str, ∀ pl pr : Tree, t = .node pkey pv pl pr →
      bst pl → bst pr → k ∉ pl.keys → k ∉ pr.keys →
      ∃ pl' pr', (addT k v t).2 = .node pkey pv pl' pr' ∧
        (∀ e ∈ pl'.entries, e ∈ pl.entries ∨ e = (k, v.take 255)) ∧
        (∀ e ∈ pr'.entries, e ∈ pr.entries ∨ e = (k, v.take 255)) ∧
        (strcmp k pkey = .lt → pr' = pr) ∧
        (¬ strcmp k pkey = .lt → pl' = pl) ∧
        bst pl' ∧ bst pr' := by
  intro t
  induction t with
  | nil => intro pkey pv pl pr h; exact absurd h (by simp)
  | node qkey qv ql qr ihl ihr =>
    intro pkey pv pl pr heq hbl hbr hnl hnr
    injection heq with h1 h2 h3 h4
    subst h1; subst h2; subst h3; subst h4
    by_cases hd : strcmp k qkey = .lt
    · cases ql with
      | nil =>
        refine ⟨.node k (v.take 255) .nil .nil, qr, ?_, ?_, ?_,
          fun _ => rfl, fun h => absurd hd h, ?_, hbr⟩
        · simp [addT_lt_nil qv qr hd, newnode_exact hk hv]
        · intro e he
          simp at he
          exact Or.inr he
        · exact fun e he => Or.inl he
        · exact ⟨by simp, by simp, trivial, trivial⟩
      | node nk nv nl nr =>
        obtain ⟨hlk, hrk, hbnl, hbnr⟩ := hbl
        have he : ¬ strcmp k nk = .eq := by
          intro he
          exact hnl ((strcmp_eq_iff k nk).mp he ▸ (by simp : nk ∈
            (Tree.node nk nv nl nr).keys))
        obtain ⟨cl', cr', heq2, hin1, hin2, hu1, hu2, hb1, hb2⟩ :=
          ihl nk nv nl nr rfl hbnl hbnr
            (fun hx => hnl (by simp [hx])) (fun hx => hnl (by simp [hx]))
        refine ⟨.node nk nv cl' cr', qr, ?_, ?_, fun e he' => Or.inl he',
          fun _ => rfl, fun h => absurd hd h, ?_, hbr⟩
        · simp [addT_lt_rec hd he, heq2]
        · intro e he'
          simp only [Tree.entries_node, List.mem_append, List.mem_cons] at he'
          rcases he' with h' | h' | h'
          · rcases hin1 e h' with h'' | h''
            · exact Or.inl (by simp [h''])
            · exact Or.inr h''
          · exact Or.inl (by simp [h'])
          · rcases hin2 e h' with h'' | h''
            · exact Or.inl (by simp [h''])
            · exact Or.inr h''
        · by_cases hlt : strcmp k nk = .lt
          · have hcr : cr' = nr := hu1 hlt
            subst hcr
            refine ⟨?_, hrk, hb1, hbnr⟩
            intro a ha
            obtain ⟨b, hb⟩ := Tree.mem_keys_iff.mp ha
            rcases hin1 (a, b) hb with h' | h'
            · exact hlk a (Tree.mem_keys_of_mem_entries h')
            · cases h'
              exact hlt
          · have hcl : cl' = nl := hu2 hlt
            subst hcl
            have hnkk : ltKey nk k :=
              (strcmp_gt_iff k nk).mp (strcmp_gt_of_not_lt_eq hlt he)
            refine ⟨hlk, ?_, hbnl, hb2⟩
            intro a ha
            obtain ⟨b, hb⟩ := Tree.mem_keys_iff.mp ha
            rcases hin2 (a, b) hb with h' | h'
            · exact hrk a (Tree.mem_keys_of_mem_entries h')
            · cases h'
              exact hnkk
    · cases qr with
      | nil =>
        refine ⟨ql, .node k (v.take 255) .nil .nil, ?_, fun e he => Or.inl he,
          ?_, fun h => absurd h hd, fun _ => rfl, hbl, ?_⟩
        · simp [addT_ge_nil qv ql hd, newnode_exact hk hv]
        · intro e he
          simp at he
          exact Or.inr he
        · exact ⟨by simp, by simp, trivial, trivial⟩
      | node nk nv nl nr =>
        obtain ⟨hlk, hrk, hbnl, hbnr⟩ := hbr
        have he : ¬ strcmp k nk = .eq := by
          intro he
          exact hnr ((strcmp_eq_iff k nk).mp he ▸ (by simp : nk ∈
            (Tree.node nk nv nl nr).keys))
        obtain ⟨cl', cr', heq2, hin1, hin2, hu1, hu2, hb1, hb2⟩ :=
          ihr nk nv nl nr rfl hbnl hbnr
            (fun hx => hnr (by simp [hx])) (fun hx => hnr (by simp [hx]))
        refine ⟨ql, .node nk nv cl' cr', ?_, fun e he' => Or.inl he', ?_,
          fun h => absurd h hd, fun _ => rfl, hbl, ?_⟩
        · simp [addT_ge_rec hd he, heq2]
        · intro e he'
          simp only [Tree.entries_node, List.mem_append, List.mem_cons] at he'
          rcases he' with h' | h' | h'
          · rcases hin1 e h' with h'' | h''
            · exact Or.inl (by simp [h''])
            · exact Or.inr h''
          · exact Or.inl (by simp [h'])
          · rcases hin2 e h' with h'' | h''
            · exact Or.inl (by simp [h''])
            · exact Or.inr h''
        · by_cases hlt : strcmp k nk = .lt
          · have hcr : cr' = nr := hu1 hlt
            subst hcr
            refine ⟨?_, hrk, hb1, hbnr⟩
            intro a ha
            obtain ⟨b, hb⟩ := Tree.mem_keys_iff.mp ha
            rcases hin1 (a, b) hb with h' | h'
            · exact hlk a (Tree.mem_keys_of_mem_entries h')
            · cases h'
              exact hlt
          · have hcl : cl' = nl := hu2 hlt
            subst hcl
            have hnkk : ltKey nk k :=
              (strcmp_gt_iff k nk).mp (strcmp_gt_of_not_lt_eq hlt he)
            refine ⟨hlk, ?_, hbnl, hb2⟩
            intro a ha
            obtain ⟨b, hb⟩ := Tree.mem_keys_iff.mp ha
            rcases hin2 (a, b) hb with h' | h'
            · exact hrk a (Tree.mem_keys_of_mem_entries h')
            · cases h'
              exact hnkk

/-! ### The tree invariant and its preservation -/

/-- The invariant maintained by every reachable state (for keys the
interpreter can produce): the sentinel's left child stays `NULL`, the
right subtree is a strict BST, every stored entry fits the 255-byte
bound the constructor enforces, and no stored key is empty. -/
def Inv (s : DB) : Prop :=
  s.hl = .nil ∧ bst s.hr ∧ shortEntries s.hr ∧ keysNonempty s.hr

theorem Inv_empty : Inv emptyDB := by
  refine ⟨rfl, trivial, ?_, ?_⟩ <;> intro e he <;> simp [emptyDB] at he

/-- `db_remove` (with an arbitrary key) preserves the invariant. -/
theorem Inv_remove (k : Str) (s : DB) (h : Inv s) : Inv (db_remove k s).2 := by
  obtain ⟨h0, hb, hs, hn⟩ := h
  have hblnil : bst s.hl := by rw [h0]; trivial
  by_cases hm : k ∈ s.hr.keys
  · obtain ⟨h1, pl', pr', heq, hel, her, hbl', hbr'⟩ :=
      removeT_found s.head [] [] s.hl s.hr rfl hblnil hb
        (by rw [h0]; intro e he; simp at he) hs
        (fun hlt => absurd hlt (strcmp_nil_not_lt k))
        (fun _ => ⟨hm, by rw [h0]; simp [Tree.keys]⟩)
    have h2 : (db_remove k s).2 = ⟨pl', pr'⟩ := by
      show unhead (removeT k s.head).2 = _
      rw [heq]
      rfl
    have hplnil : pl' = .nil := by
      rw [← Tree.entries_eq_nil_iff, hel, h0]
      simp
    refine ⟨by rw [h2, hplnil], by rw [h2]; exact hbr', ?_, ?_⟩
    · intro e he
      rw [h2] at he
      exact hs e (List.mem_of_mem_filter (her ▸ he))
    · intro e he
      rw [h2] at he
      exact hn e (List.mem_of_mem_filter (her ▸ he))
  · have hsn : searchT k s.head = none :=
      searchT_none_of_not_mem s.head [] [] s.hl s.hr rfl
        (by rw [h0]; simp [Tree.keys]) hm
    have h2 : (db_remove k s).2 = s := by
      show unhead (removeT k s.head).2 = s
      rw [removeT_of_search_none s.head hsn]
      exact unhead_head s
    rw [h2]
    exact ⟨h0, hb, hs, hn⟩

/-- `db_add` with a nonempty key of at most 255 bytes preserves the
invariant. -/
theorem Inv_add (k v : Str) (hk1 : k ≠ []) (hk2 : k.length ≤ 255)
    (s : DB) (h : Inv s) : Inv (db_add k v s).2 := by
  obtain ⟨h0, hb, hs, hn⟩ := h
  have hblnil : bst s.hl := by rw [h0]; trivial
  have hknl : k ∉ s.hl.keys := by rw [h0]; simp [Tree.keys]
  by_cases hm : k ∈ s.hr.keys
  · obtain ⟨w, hw⟩ := searchT_some_of_mem s.head [] [] s.hl s.hr rfl
      hblnil hb (fun hlt => absurd hlt (strcmp_nil_not_lt k))
      (fun _ => ⟨hm, hknl⟩)
    have h2 : db_add k v s = (false, s) := db_add_duplicate s k w v hw
    rw [h2]
    exact ⟨h0, hb, hs, hn⟩
  · by_cases hv : v.length ≤ 256
    · obtain ⟨pl', pr', heq, hin1, hin2, hu1, hu2, hbl', hbr'⟩ :=
        addT_absent hk2 hv s.head [] [] s.hl s.hr rfl hblnil hb hknl hm
      have h2 : (db_add k v s).2 = ⟨pl', pr'⟩ := by
        show unhead (addT k v s.head).2 = _
        rw [heq]
        rfl
      have hdir : ¬ strcmp k [] = .lt := strcmp_nil_not_lt k
      have hpl : pl' = s.hl := hu2 hdir
      refine ⟨by rw [h2, hpl, h0], by rw [h2]; exact hbr', ?_, ?_⟩
      · intro e he
        rw [h2] at he
        rcases hin2 e he with h' | h'
        · exact hs e h'
        · subst h'
          exact ⟨hk2, by simp⟩
      · intro e he
        rw [h2] at he
        rcases hin2 e he with h' | h'
        · exact hn e h'
        · subst h'
          exact hk1
    · have h2 : (db_add k v s).2 = s := by
        show unhead (addT k v s.head).2 = s
        rw [addT_oversize (Or.inr (by omega)) s.head]
        exact unhead_head s
      rw [h2]
      exact ⟨h0, hb, hs, hn⟩

/-- Every state reachable with interpreter-shaped keys satisfies the
invariant. -/
theorem ReachOK_Inv : ∀ {s : DB}, ReachOK s → Inv s := by
  intro s h
  induction h with
  | empty => exact Inv_empty
  | add k v hne hlen _ ih => exact Inv_add k v hne hlen _ ih
  | remove k _ ih => exact Inv_remove k _ ih

/-- DB-level delete specification: on a well-formed state containing
`k`, `db_remove` succeeds and the stored key/value map is exactly the
old map with `k`'s entry removed. -/
theorem db_remove_spec (s : DB) (k : Str) (h0 : s.hl = .nil)
    (hb : bst s.hr) (hs : shortEntries s.hr) (hm : k ∈ s.hr.keys) :
    (db_remove k s).1 = true ∧
    (db_remove k s).2.hl = .nil ∧
    (db_remove k s).2.hr.entries =
      s.hr.entries.filter (fun e => decide (e.1 ≠ k)) ∧
    bst (db_remove k s).2.hr := by
  have hblnil : bst s.hl := by rw [h0]; trivial
  obtain ⟨h1, pl', pr', heq, hel, her, hbl', hbr'⟩ :=
    removeT_found s.head [] [] s.hl s.hr rfl hblnil hb
      (by rw [h0]; intro e he; simp at he) hs
      (fun hlt => absurd hlt (strcmp_nil_not_lt k))
      (fun _ => ⟨hm, by rw [h0]; simp [Tree.keys]⟩)
  have h2 : (db_remove k s).2 = ⟨pl', pr'⟩ := by
    show unhead (removeT k s.head).2 = _
    rw [heq]
    rfl
  have hplnil : pl' = .nil := by
    rw [← Tree.entries_eq_nil_iff, hel, h0]
    simp
  exact ⟨h1, by rw [h2, hplnil], by rw [h2]; exact her, by rw [h2]; exact hbr'⟩

/-! ### The heap-level frame property of `db_query` -/

/-- `search` performs no store: the heap after the call is the heap
before it. -/
theorem searchH_frame : ∀ (fuel : Nat) (h : Heap) (key : Str) (p : Nat),
    (searchH fuel h key p).2 = h := by
  intro fuel
  induction fuel with
  | zero => intro h key p; rfl
  | succ n ih =>
    intro h key p
    show (searchH (n + 1) h key p).2 = h
    rw [searchH]
    split
    · rfl
    · split
      · rfl
      · split
        · rfl
        · split
          · rfl
          · exact ih h key _

/-- `db_query` performs no store either: every node's key, value and
child links are identical before and after the call. -/
theorem db_queryH_frame (fuel : Nat) (h : Heap) (key : Str) (root len : Nat) :
    (db_queryH fuel h key root len).2 = h := by
  simp only [db_queryH]
  split
  · exact searchH_frame fuel h key root
  · split
    · exact searchH_frame fuel h key root
    · exact searchH_frame fuel h key root

/-! ### Interpreter-level lemmas -/

/-- A `%255s` conversion on a buffer holding one space and then a
token of at most 255 non-whitespace bytes matches exactly that token
and consumes the buffer. -/
theorem scanToken_exact {k : Str} (hk : k ≠ [])
    (hs : ∀ c ∈ k, isspaceB c = false) (hlen : k.length ≤ 255) :
    scanToken (32 :: k) = some (k, []) := by
  cases k with
  | nil => exact absurd rfl hk
  | cons c0 rest =>
    have hc0 : isspaceB c0 = false := hs c0 (by simp)
    have h1 : (32 :: c0 :: rest).dropWhile (fun c => isspaceB c) =
        c0 :: rest := by
      rw [List.dropWhile_cons, if_pos (by simp [isspaceB]),
        List.dropWhile_cons, if_neg (by simp [hc0])]
    have h2 : (c0 :: rest).takeWhile (fun c => !isspaceB c) = c0 :: rest :=
      List.takeWhile_eq_self_iff.mpr (fun x hx => by simp [hs x hx])
    unfold scanToken
    rw [h1]
    simp only [h2, List.take_of_length_le hlen, List.drop_length]

/-- Every ill-formed command class — a line of length at most one, an
unrecognized verb, or a `q`/`a`/`d` line with a missing token — writes
`ill-formed command` and performs no Tree call and no state change. -/
theorem interpret_illformed (fs : Str → Option (List Str)) (fuel : Nat)
    (cmd : Str) (s : DB) (len : Nat)
    (h : cmd.length ≤ 1 ∨
      cmd.headD 0 ∉ ([113, 97, 100, 102] : List Nat) ∨
      ((cmd.headD 0 = 113 ∨ cmd.headD 0 = 100) ∧ scanToken cmd.tail = none) ∨
      (cmd.headD 0 = 97 ∧ (scanToken cmd.tail = none ∨
        ∃ nm rest, scanToken cmd.tail = some (nm, rest) ∧
          scanToken rest = none))) :
    interpret_command fs (fuel + 1) cmd s len =
      (snprint len (strBytes "ill-formed command"), s, []) := by
  by_cases hlen : cmd.length ≤ 1
  · simp [interpret_command, hlen]
  · rcases h with h | h | ⟨hc, htok⟩ | ⟨hc, htok⟩
    · exact absurd h hlen
    · simp only [List.mem_cons, List.not_mem_nil, or_false, not_or] at h
      obtain ⟨hq, ha, hd, hf⟩ := h
      rw [List.headD_eq_head?_getD] at hq ha hd hf
      simp [interpret_command, hlen, hq, ha, hd, hf]
    · rw [List.headD_eq_head?_getD] at hc
      rcases hc with hc | hc
      · simp [interpret_command, hlen, hc, htok]
      · simp [interpret_command, hlen, hc, htok]
    · rw [List.headD_eq_head?_getD] at hc
      rcases htok with htok | ⟨nm, rest, htok1, htok2⟩
      · simp [interpret_command, hlen, hc, htok]
      · simp [interpret_command, hlen, hc, htok1, htok2]

/-- `q K` on a state where `K` is stored with the empty value: the
`strlen(response) == 0` check rewrites the response to `not found`. -/
theorem interpret_query_empty_value (fs : Str → Option (List Str))
    (fuel : Nat) (s : DB) (k : Str) (len : Nat) (hk : k ≠ [])
    (hs : ∀ c ∈ k, isspaceB c = false) (hlen : k.length ≤ 255)
    (hv : db_lookup k s = some []) (hlen2 : 10 ≤ len) :
    (interpret_command fs (fuel + 1) (113 :: 32 :: k) s len).1 =
      strBytes "not found" ∧
    (interpret_command fs (fuel + 1) (113 :: 32 :: k) s len).2.1 = s := by
  have hcl : ¬ (113 :: 32 :: k : Str).length ≤ 1 := by simp
  have hquery : db_query k len s = [] := by
    unfold db_query
    rw [hv]
    simp [snprint]
  have hnf : (strBytes "not found").length ≤ len - 1 := by
    simp [strBytes]
    omega
  simp [interpret_command, hcl, scanToken_exact hk hs hlen, hquery, snprint,
    List.take_of_length_le hnf]

/-! ### The claims -/

/-- Claim C1: insert/delete round-trip.  For every key `K` and value
`V`, from any tree state, after `db_add(K, V)` succeeds and
`db_remove(K)` runs, `db_query(K)` yields `not found` (the lookup is
empty, and the query buffer receives the literal `not found`). -/
theorem claim_C1 (s : DB) (k v : Str) (h : (db_add k v s).1 = true) :
    db_lookup k (db_remove k (db_add k v s).2).2 = none ∧
    ∀ len : Nat, db_query k len (db_remove k (db_add k v s).2).2 =
      snprint len (strBytes "not found") := by
  have h1 := db_roundtrip_lookup s k v h
  refine ⟨h1, fun len => ?_⟩
  unfold db_query
  rw [h1]

theorem claim_C1_witness :
    (db_add [107] [118] emptyDB).1 = true ∧
    db_lookup [107] (db_remove [107] (db_add [107] [118] emptyDB).2).2 =
      none :=
  ⟨by decide, (claim_C1 emptyDB [107] [118] (by decide)).1⟩

/-- Claim C2: the delete algorithm (splice of the single child when one
child is missing, in-place successor replacement when both exist)
removes exactly the key's entry: on a well-formed state that contains
`K`, `db_remove` reports success and the resulting key/value map equals
the original map with `K`'s entry removed (and is again a BST). -/
theorem claim_C2 (s : DB) (k : Str) (h0 : s.hl = .nil) (hb : bst s.hr)
    (hs : shortEntries s.hr) (hm : k ∈ s.hr.keys) :
    (db_remove k s).1 = true ∧
    (db_remove k s).2.hl = .nil ∧
    (db_remove k s).2.hr.entries =
      s.hr.entries.filter (fun e => decide (e.1 ≠ k)) ∧
    bst (db_remove k s).2.hr :=
  db_remove_spec s k h0 hb hs hm

/-- A small successor-replacement instance: deleting the root of a
three-node tree. -/
def c2s : DB :=
  ⟨.nil, .node [109] [49] (.node [102] [50] .nil .nil)
    (.node [116] [51] .nil .nil)⟩

theorem claim_C2_witness :
    (c2s.hl = .nil ∧ bst c2s.hr ∧ shortEntries c2s.hr ∧
      [109] ∈ c2s.hr.keys) ∧
    ((db_remove [109] c2s).1 = true ∧
      (db_remove [109] c2s).2.hl = .nil ∧
      (db_remove [109] c2s).2.hr.entries =
        c2s.hr.entries.filter (fun e => decide (e.1 ≠ [109])) ∧
      bst (db_remove [109] c2s).2.hr) :=
  ⟨⟨rfl, (bstB_iff_bst _).mp (by decide), by unfold shortEntries; decide,
      by decide⟩,
    claim_C2 c2s [109] rfl ((bstB_iff_bst _).mp (by decide))
      (by unfold shortEntries; decide) (by decide)⟩

/-- The two inserts that break the claimed invariant: a 255-byte key
followed by the 256-byte key extending it, which `node_constructor`
silently truncates back to the same 255 bytes. -/
def c3k1 : Str := List.replicate 255 97

def c3k2 : Str := List.replicate 256 97

def c3s : DB := (db_add c3k2 [50] (db_add c3k1 [49] emptyDB).2).2

set_option maxRecDepth 8000 in
/-- Claim C3, as stated, is false: the state reached by `db_add` of a
255-byte key and then of its 256-byte extension stores two non-sentinel
nodes with the same key (and the second sits in the right subtree of
the first without being strictly greater). -/
theorem claim_C3_counterexample :
    Reach c3s ∧
    ¬ (bst c3s.hl ∧ bst c3s.hr ∧
        ([] :: (c3s.hl.keys ++ c3s.hr.keys)).Nodup) :=
  ⟨Reach.add c3k2 [50] (Reach.add c3k1 [49] Reach.empty),
    fun h => absurd h.2.2 (by decide)⟩

/-- Claim C3 (amended): in every tree state reachable from the empty
database by `db_add` calls whose keys are nonempty and at most 255
bytes — exactly the keys the command interpreter can produce — and
arbitrary `db_remove` calls, every non-sentinel node satisfies the
strict BST order on both subtrees and no two nodes (the sentinel
included) share a key. -/
theorem claim_C3 (s : DB) (h : ReachOK s) :
    bst s.hl ∧ bst s.hr ∧ ([] :: (s.hl.keys ++ s.hr.keys)).Nodup := by
  obtain ⟨h0, hb, hs, hn⟩ := ReachOK_Inv h
  refine ⟨by rw [h0]; trivial, hb, ?_⟩
  rw [h0]
  simp only [Tree.keys_nil, List.nil_append]
  refine List.nodup_cons.mpr ⟨?_, bst_nodup hb⟩
  intro hmem
  obtain ⟨b, hbm⟩ := Tree.mem_keys_iff.mp hmem
  exact hn _ hbm rfl

theorem claim_C3_witness :
    ReachOK (db_add [107] [118] emptyDB).2 ∧
    (bst (db_add [107] [118] emptyDB).2.hl ∧
      bst (db_add [107] [118] emptyDB).2.hr ∧
      ([] :: ((db_add [107] [118] emptyDB).2.hl.keys ++
        (db_add [107] [118] emptyDB).2.hr.keys)).Nodup) :=
  have hr : ReachOK (db_add [107] [118] emptyDB).2 :=
    ReachOK.add [107] [118] (by decide) (by decide) ReachOK.empty
  ⟨hr, claim_C3 _ hr⟩

/-- Claim C4: duplicate insert fails and preserves the stored value:
when `K` is present with value `V1`, `db_add(K, V2)` returns 0, the
state is unchanged, and a subsequent lookup still yields `V1`. -/
theorem claim_C4 (s : DB) (k v1 v2 : Str) (h : db_lookup k s = some v1) :
    db_add k v2 s = (false, s) ∧
    db_lookup k (db_add k v2 s).2 = some v1 := by
  have h2 := db_add_duplicate s k v1 v2 h
  exact ⟨h2, by rw [h2]; exact h⟩

theorem claim_C4_witness :
    db_lookup [107] (db_add [107] [49] emptyDB).2 = some [49] ∧
    db_add [107] [50] (db_add [107] [49] emptyDB).2 =
      (false, (db_add [107] [49] emptyDB).2) :=
  ⟨by decide,
    (claim_C4 (db_add [107] [49] emptyDB).2 [107] [49] [50] (by decide)).1⟩

set_option maxRecDepth 4000 in
/-- Claim C5 names a genuine bug: when `node_constructor` returns no
node (here: a 257-byte key), `db_add` still returns 1 — it attaches
the `NULL` result without a check (src/db.c:166-170) and reports
success ("added"), although the claim (and the function's own header
comment, src/db.h:36-38, and spec §7) require failure.  The tree is
indeed left unchanged. -/
theorem claim_C5 :
    node_constructor (List.replicate 257 97) [118] .nil .nil = none ∧
    db_add (List.replicate 257 97) [118] emptyDB = (true, emptyDB) := by
  exact ⟨by decide, by decide⟩

/-- Claim C6: ill-formed commands are rejected before the Tree: a line
of length at most one, an unrecognized verb (not `q`/`a`/`d`/`f`), or
a `q`/`a`/`d` line whose key (or, for `a`, value) token is missing —
in particular the empty key, which `%255s` can never match — produce
the response `ill-formed command`, leave the database untouched and
invoke no Tree operation. -/
theorem claim_C6 (fs : Str → Option (List Str)) (fuel : Nat) (cmd : Str)
    (s : DB) (len : Nat)
    (h : cmd.length ≤ 1 ∨
      cmd.headD 0 ∉ ([113, 97, 100, 102] : List Nat) ∨
      ((cmd.headD 0 = 113 ∨ cmd.headD 0 = 100) ∧ scanToken cmd.tail = none) ∨
      (cmd.headD 0 = 97 ∧ (scanToken cmd.tail = none ∨
        ∃ nm rest, scanToken cmd.tail = some (nm, rest) ∧
          scanToken rest = none))) :
    interpret_command fs (fuel + 1) cmd s len =
      (snprint len (strBytes "ill-formed command"), s, []) :=
  interpret_illformed fs fuel cmd s len h

theorem claim_C6_witness :
    (([113] : Str).length ≤ 1 ∨
      ([113] : Str).headD 0 ∉ ([113, 97, 100, 102] : List Nat) ∨
      ((([113] : Str).headD 0 = 113 ∨ ([113] : Str).headD 0 = 100) ∧
        scanToken ([113] : Str).tail = none) ∨
      (([113] : Str).headD 0 = 97 ∧ (scanToken ([113] : Str).tail = none ∨
        ∃ nm rest, scanToken ([113] : Str).tail = some (nm, rest) ∧
          scanToken rest = none))) ∧
    interpret_command (fun _ => none) 1 [113] emptyDB 64 =
      (snprint 64 (strBytes "ill-formed command"), emptyDB, []) :=
  ⟨Or.inl (by decide),
    claim_C6 (fun _ => none) 0 [113] emptyDB 64 (Or.inl (by decide))⟩

set_option maxRecDepth 4000 in
/-- Claim C7, as stated, is false at a key of exactly 256 bytes:
`node_constructor` accepts it (only inputs strictly longer than 256
bytes are rejected) but `snprintf(buf, MAXLEN, ...)` stores only the
first 255 bytes, so the returned node's key differs from the input. -/
theorem claim_C7_counterexample :
    node_constructor (List.replicate 256 97) [118] .nil .nil =
      some (.node (List.replicate 255 97) [118] .nil .nil) ∧
    (List.replicate 255 97 : Str) ≠ List.replicate 256 97 :=
  ⟨by decide, by decide⟩

/-- Claim C7 (amended): `node_constructor` returns no node when either
input exceeds 256 bytes; inputs of at most 255 bytes are copied
exactly, with the child links as given (`NULL` at the only call site);
inputs of exactly 256 bytes are accepted but truncated to their first
255 bytes. -/
theorem claim_C7 (k v : Str) :
    (256 < k.length ∨ 256 < v.length →
      node_constructor k v .nil .nil = none) ∧
    (k.length ≤ 255 → v.length ≤ 255 →
      node_constructor k v .nil .nil = some (.node k v .nil .nil)) ∧
    (k.length ≤ 256 → v.length ≤ 256 →
      node_constructor k v .nil .nil =
        some (.node (k.take 255) (v.take 255) .nil .nil)) := by
  refine ⟨fun h => ?_, fun h1 h2 => ?_, fun h1 h2 => ?_⟩
  · unfold node_constructor
    rw [if_pos (by simpa [MAXLEN] using h)]
  · unfold node_constructor
    rw [if_neg (by simp [MAXLEN]; omega)]
    simp [MAXLEN, List.take_of_length_le h1, List.take_of_length_le h2]
  · unfold node_constructor
    rw [if_neg (by simp [MAXLEN]; omega)]
    simp [MAXLEN]

theorem claim_C7_witness :
    (([97] : Str).length ≤ 255 ∧ ([98] : Str).length ≤ 255) ∧
    node_constructor [97] [98] .nil .nil =
      some (.node [97] [98] .nil .nil) :=
  ⟨⟨by decide, by decide⟩, (claim_C7 [97] [98]).2.1 (by decide) (by decide)⟩

/-- A 100-byte value, as the `f` command can load into the database
(its line buffer is 256 bytes, while session commands are capped at
`COMMAND_LEN`). -/
def c8val : Str := List.replicate 100 118

set_option maxRecDepth 4000 in
/-- Claim C8 names a genuine bug: `run_client` declares
`response[RESLEN]` with `RESLEN = 256`, but passes `COMMAND_LEN = 64`
as the length argument of `interpret_command` (src/src/server.c:125),
so every response is truncated to 63 bytes plus the terminator: a
stored 100-byte value — which the claim says is delivered untruncated,
being under 255 bytes — comes back cut to its first 63 bytes. -/
theorem claim_C8 :
    RESLEN = 256 ∧ COMMAND_LEN = 64 ∧ c8val.length ≤ 255 ∧
    (serve_command (fun _ => none) 1 [113, 32, 107]
        (db_add [107] c8val emptyDB).2).1 = c8val.take 63 ∧
    c8val.take 63 ≠ c8val :=
  ⟨rfl, rfl, by decide, by decide, by decide⟩

/-- Claim C9: query does not mutate.  Against the explicit heap,
`db_query` (via `search`) performs no store: the heap — every node's
key, value and child links — is identical before and after the call,
for any heap, any key, any fuel and any buffer length. -/
theorem claim_C9 (fuel : Nat) (h : Heap) (key : Str) (root len : Nat) :
    (db_queryH fuel h key root len).2 = h :=
  db_queryH_frame fuel h key root len

/-- Claim C10: a present key whose stored value is the empty string
reads as absent: `db_query` fills the buffer with the empty value, the
`strlen(response) == 0` check at src/db.c:354 fires, and the session
answers `not found`, exactly the response an absent key produces. -/
theorem claim_C10 (fs : Str → Option (List Str)) (fuel : Nat) (s : DB)
    (k : Str) (len : Nat) (hk : k ≠ [])
    (hs : ∀ c ∈ k, isspaceB c = false) (hlen : k.length ≤ 255)
    (hv : db_lookup k s = some []) (hlen2 : 10 ≤ len) :
    (interpret_command fs (fuel + 1) (113 :: 32 :: k) s len).1 =
      strBytes "not found" ∧
    (interpret_command fs (fuel + 1) (113 :: 32 :: k) s len).2.1 = s :=
  interpret_query_empty_value fs fuel s k len hk hs hlen hv hlen2

theorem claim_C10_witness :
    (([107] : Str) ≠ [] ∧ (∀ c ∈ ([107] : Str), isspaceB c = false) ∧
      ([107] : Str).length ≤ 255 ∧
      db_lookup [107] (db_add [107] [] emptyDB).2 = some [] ∧
      10 ≤ 64) ∧
    (interpret_command (fun _ => none) 1 (113 :: 32 :: [107])
        (db_add [107] [] emptyDB).2 64).1 = strBytes "not found" :=
  ⟨⟨by decide, by decide, by decide, by decide, by decide⟩,
    (claim_C10 (fun _ => none) 0 (db_add [107] [] emptyDB).2 [107] 64
      (by decide) (by decide) (by decide) (by decide) (by decide)).1⟩
end ConcurrentDB
